import Mathlib

/-!
# Verification of `deltasigma._bplogsmooth.bplogsmooth`

A shallow embedding of the `bplogsmooth` routine from
`src/deltasigma/_bplogsmooth.py`.  Machine integers are modelled by `ℤ`/`ℕ`,
Python/numpy floats by `ℚ` (for the bin-edge computation, whose float
operations are exact or provably agree with exact rational arithmetic on the
reachable values) and by `ℝ`/`ℂ` for the final power computation.  The two
`while` loops are modelled by fuel-indexed structural recursion together with
theorems showing the fuel never runs out, so that all bin computations reduce
inside the kernel.
-/

namespace DeltaSigma

/-- Modelled from the spec: the nearest-integer rounding helper `mround`
(from `_utils.py`, not present under `src/`): "a pure function mapping a real
scalar to the nearest integer", with ties rounded away from zero (the MATLAB
convention of the reference toolbox). -/
def mround (x : ℚ) : ℤ := if 0 ≤ x then ⌊x + 1/2⌋ else -⌊-x + 1/2⌋

/-- One growth step of the bin width: `n = mround(min(n*1.1, 2**10))`.
The float product `n*1.1` agrees with the rational `11*n/10` after `mround`
for every value reachable from the initial width 8. -/
def grow (n : ℤ) : ℤ := mround (min ((11 * n : ℚ) / 10) 1024)

/-- `numpy.arange(start, stop, step)` over integers: the elements
`start + k*step` for `0 ≤ k < ⌈(stop-start)/step⌉`. -/
def arange (start stop step : ℤ) : List ℤ :=
  (List.range (⌈(stop - start : ℚ) / (step : ℚ)⌉.toNat)).map
    fun k : ℕ => start + (k : ℤ) * step

/-- The upper-sideband geometric-growth loop
`while m + n/2 < N/2: append m; n = mround(min(n*1.1, 1024)); m += n`,
as fuel-indexed recursion; `none` means the fuel ran out before the loop
condition failed.  The condition `m + n/2 < N/2` is written `2*m + n < N`
(an exact transformation: both sides are exact in binary floating point). -/
def usbWalk : ℕ → ℤ → ℤ → ℤ → Option (List ℤ)
  | 0, N, n, m => if 2 * m + n < N then none else some []
  | fuel + 1, N, n, m =>
    if 2 * m + n < N then (usbWalk fuel N (grow n) (m + grow n)).map (m :: ·)
    else some []

/-- The lower-sideband geometric-growth loop
`while m - n/2 > 1: append m; n = mround(min(n*1.1, 1024)); m -= n`;
the condition `m - n/2 > 1` is written `2 < 2*m - n`. -/
def lsbWalk : ℕ → ℤ → ℤ → Option (List ℤ)
  | 0, n, m => if 2 < 2 * m - n then none else some []
  | fuel + 1, n, m =>
    if 2 < 2 * m - n then (lsbWalk fuel (grow n) (m - grow n)).map (m :: ·)
    else some []

/-- The upper-sideband loop with sufficient fuel (the fuel bound is proved
adequate below, so this is exactly the source loop). -/
def usbLoop (N n m : ℤ) : List ℤ := (usbWalk (N - 2 * m).toNat N n m).getD []

/-- The lower-sideband loop with sufficient fuel. -/
def lsbLoop (n m : ℤ) : List ℤ := (lsbWalk m.toNat n m).getD []

/-- `bin0 = int(mround(f0*N))`, the rounded tone bin. -/
def bin0V (N : ℕ) (f0 : ℚ) : ℤ := mround (f0 * N)

/-- `bin1 = ((tbin - bin0) % n) + bin0` with `n = 8`. -/
def bin1V (N : ℕ) (tbin : ℤ) (f0 : ℚ) : ℤ := (tbin - bin0V N f0) % 8 + bin0V N f0

/-- `bind = bin1 - bin0`. -/
def bindV (N : ℕ) (tbin : ℤ) (f0 : ℚ) : ℤ := bin1V N tbin f0 - bin0V N f0

/-- The initial (pre-loop) upper-sideband edges:
`np.concatenate((np.arange(bin1, tbin+1, n), np.arange(tbin+3, tbin+bind+1, 8)))`. -/
def usbInit (N : ℕ) (tbin : ℤ) (f0 : ℚ) : List ℤ :=
  arange (bin1V N tbin f0) (tbin + 1) 8 ++
    arange (tbin + 3) (tbin + bindV N tbin f0 + 1) 8

/-- `usb1`: initial edges followed by the geometric-growth walk starting at
`usb1[-1] + 8`. -/
def usb1V (N : ℕ) (tbin : ℤ) (f0 : ℚ) : List ℤ :=
  usbInit N tbin f0 ++
    usbLoop (N : ℤ) 8 ((usbInit N tbin f0).getLast?.getD 0 + 8)

/-- `usb2 = np.concatenate((usb1[1:]-1, np.array((N2,))))`. -/
def usb2V (N : ℕ) (tbin : ℤ) (f0 : ℚ) : List ℤ :=
  (usb1V N tbin f0).tail.map (· - 1) ++ [(N : ℤ) / 2]

/-- The initial lower-sideband edges:
`lsb2 = np.arange(bin1, bin1 - 2*bind + 1, -n) - 1`. -/
def lsbInit (N : ℕ) (tbin : ℤ) (f0 : ℚ) : List ℤ :=
  (arange (bin1V N tbin f0) (bin1V N tbin f0 - 2 * bindV N tbin f0 + 1) (-8)).map (· - 1)

/-- `lsb2`: initial edges followed by the downward walk from `lsb2[-1] - 8`. -/
def lsb2V (N : ℕ) (tbin : ℤ) (f0 : ℚ) : List ℤ :=
  lsbInit N tbin f0 ++ lsbLoop 8 ((lsbInit N tbin f0).getLast?.getD 0 - 8)

/-- `lsb1 = np.concatenate((lsb2[1:] + 1, np.ones((1,))))`. -/
def lsb1V (N : ℕ) (tbin : ℤ) (f0 : ℚ) : List ℤ :=
  (lsb2V N tbin f0).tail.map (· + 1) ++ [1]

/-- `startbin = np.concatenate((lsb1[::-1], usb1)) - 1`. -/
def startbinV (N : ℕ) (tbin : ℤ) (f0 : ℚ) : List ℤ :=
  ((lsb1V N tbin f0).reverse ++ usb1V N tbin f0).map (· - 1)

/-- `stopbin = np.concatenate((lsb2[::-1], usb2)) - 1`. -/
def stopbinV (N : ℕ) (tbin : ℤ) (f0 : ℚ) : List ℤ :=
  ((lsb2V N tbin f0).reverse ++ usb2V N tbin f0).map (· - 1)

/-- Runtime failures of `bplogsmooth`: the `assert tbin > bin0` precondition
check, and the `IndexError` raised by `lsb2[-1]` (or `usb1[-1]`) on an empty
array. -/
inductive BPError where
  | PreconditionViolation : BPError
  | IndexError : BPError
deriving DecidableEq, Repr

/-- The bin-boundary computation of `bplogsmooth`, over the length `N` of the
squeezed input array (`N = X.shape[0]`).  Returns the pair
`(startbin, stopbin)` of 0-indexed closed interval bounds, or the runtime
failure the source raises. -/
def bplogsmoothCore (N : ℕ) (tbin : ℤ) (f0 : ℚ) : Except BPError (List ℤ × List ℤ) :=
  if tbin ≤ bin0V N f0 then .error .PreconditionViolation
  else if (usbInit N tbin f0).isEmpty ∨ (lsbInit N tbin f0).isEmpty then .error .IndexError
  else .ok (startbinV N tbin f0, stopbinV N tbin f0)

/-- Clamp an integer index to a Python slice bound for a sequence of length
`len` (negative indices count from the end, out-of-range bounds clamp). -/
def pyBound (len : ℕ) (i : ℤ) : ℕ := if i < 0 then (i + len).toNat else min i.toNat len

/-- Python slice `X[a:b]` with integer bounds. -/
def pySlice {α : Type} (X : List α) (a b : ℤ) : List α :=
  (X.drop (pyBound X.length a)).take (pyBound X.length b - pyBound X.length a)

/-- Modelled from the spec: the power-ratio-to-decibel helper `dbp`
(from `_dbp.py`, not present under `src/`): "a pure function mapping a
non-negative power ratio to `10*log10(ratio)`". -/
noncomputable def dbp (x : ℝ) : ℝ := 10 * Real.logb 10 x

/-- One output power value:
`dbp(norm(X[startbin[i]:stopbin[i]+1]**2. / (stopbin[i]-startbin[i]+1.), ord=1))`,
where the 1-norm of a complex vector is the sum of the absolute values of its
entries. -/
noncomputable def pEntry (X : List ℂ) (s t : ℤ) : ℝ :=
  dbp (((pySlice X s (t + 1)).map
    (fun z => Complex.abs (z ^ 2 / ((t - s + 1 : ℤ) : ℂ)))).sum)

/-- The frequency output `f = ((startbin + stopbin)/2.)/N - f0`. -/
def fOut (N : ℕ) (f0 : ℚ) (sb tb : List ℤ) : List ℚ :=
  (sb.zip tb).map fun p => ((p.1 + p.2 : ℚ) / 2) / (N : ℚ) - f0

/-- The full `bplogsmooth(X, tbin, f0)` call on a (1-D, already squeezed)
complex input array `X`, with `N = X.shape[0]`. -/
noncomputable def bplogsmooth (X : List ℂ) (tbin : ℤ) (f0 : ℚ) :
    Except BPError (List ℚ × List ℝ) :=
  match bplogsmoothCore X.length tbin f0 with
  | .error e => .error e
  | .ok (sb, tb) =>
      .ok (fOut X.length f0 sb tb, (sb.zip tb).map fun p => pEntry X p.1 p.2)

/-- The bin-boundary part of `bplogsmooth` on an input array. -/
def bplogsmoothBins (X : List ℂ) (tbin : ℤ) (f0 : ℚ) :
    Except BPError (List ℤ × List ℤ) :=
  bplogsmoothCore X.length tbin f0

/-- Non-degeneracy conditions for an input: the documented precondition
`tbin > bin0`, the tone offset not divisible by 8 (else the source raises
`IndexError`), the tone at least 8 bins above DC, and `tbin` at least 3 bins
below the Nyquist bin.  These make the bin lists well-behaved. -/
def NonDegenerate (N : ℕ) (tbin : ℤ) (f0 : ℚ) : Prop :=
  bin0V N f0 < tbin ∧ (tbin - bin0V N f0) % 8 ≠ 0 ∧
    8 ≤ bin0V N f0 ∧ tbin + 3 ≤ (N : ℤ) / 2

instance (N : ℕ) (tbin : ℤ) (f0 : ℚ) : Decidable (NonDegenerate N tbin f0) := by
  unfold NonDegenerate; infer_instance

/-- Modelled from the spec: the claimed per-bin power, "the power-ratio-to-
decibel conversion applied to the mean squared magnitude of the samples
`X[startbin[i]..stopbin[i]]` (end-inclusive), where the mean is the sum of
squared magnitudes divided by the bin width in samples". -/
noncomputable def specBinMean (X : List ℂ) (s t : ℤ) : ℝ :=
  (((X.drop s.toNat).take (t - s + 1).toNat).map Complex.normSq).sum /
    ((t - s + 1 : ℤ) : ℝ)

/-- Modelled from the spec (claim C9): the bins form a gapless partition of
the index range `0 .. N2 - 1`: an index is in that range exactly when it lies
in exactly one bin. -/
def IsBinPartition (sb tb : List ℤ) (N2 : ℤ) : Prop :=
  ∀ j : ℤ, (0 ≤ j ∧ j ≤ N2 - 1) ↔
    ∃! i : ℕ, i < sb.length ∧ sb.getD i 0 ≤ j ∧ j ≤ tb.getD i 0

/-- Differences of consecutive elements. -/
def gaps (l : List ℤ) : List ℤ := (l.zip l.tail).map fun p => p.2 - p.1

/-- Downward differences of consecutive elements. -/
def downGaps (l : List ℤ) : List ℤ := (l.zip l.tail).map fun p => p.1 - p.2

/-- The widths (in samples) of the output bins. -/
def widths (sb tb : List ℤ) : List ℤ := List.zipWith (fun s t => t - s + 1) sb tb

/-- The index of `tbin` among the upper-sideband start edges. -/
def toneIdx (N : ℕ) (tbin : ℤ) (f0 : ℚ) : ℕ := ((tbin - bin1V N tbin f0) / 8).toNat

/-! ## Arithmetic facts about `mround` and `grow` -/

theorem mround_of_nonneg {x : ℚ} (h : 0 ≤ x) : mround x = ⌊x + 1/2⌋ := by
  simp [mround, h]

theorem grow_lb {n : ℤ} (h : 8 ≤ n) : 9 ≤ grow n := by
  have hx : (44/5 : ℚ) ≤ min ((11 * n : ℚ) / 10) 1024 := by
    refine le_min (by push_cast; linarith [(by exact_mod_cast h : (8:ℚ) ≤ (n:ℚ))]) (by norm_num)
  have h0 : (0:ℚ) ≤ min ((11 * n : ℚ) / 10) 1024 := le_trans (by norm_num) hx
  rw [grow, mround_of_nonneg h0]
  exact Int.le_floor.2 (by push_cast; linarith)

theorem grow_pos {n : ℤ} (h : 8 ≤ n) : 0 < grow n :=
  lt_of_lt_of_le (by norm_num) (grow_lb h)

theorem grow_ge8 {n : ℤ} (h : 8 ≤ n) : 8 ≤ grow n :=
  le_trans (by norm_num) (grow_lb h)

theorem grow_ub {n : ℤ} (h : 8 ≤ n) : grow n ≤ 1024 := by
  have hx : min ((11 * n : ℚ) / 10) 1024 ≤ 1024 := min_le_right _ _
  have h0 : (0:ℚ) ≤ min ((11 * n : ℚ) / 10) 1024 := by
    refine le_min (by positivity) (by norm_num)
  rw [grow, mround_of_nonneg h0]
  have : (⌊min ((11 * n : ℚ) / 10) 1024 + 1/2⌋ : ℤ) < 1025 :=
    Int.floor_lt.2 (by push_cast; linarith)
  omega

theorem le_grow {n : ℤ} (h8 : 8 ≤ n) (h : n ≤ 1024) : n ≤ grow n := by
  have hn : (n:ℚ) ≤ min ((11 * n : ℚ) / 10) 1024 := by
    refine le_min (by push_cast; linarith [(by exact_mod_cast h8 : (8:ℚ) ≤ (n:ℚ))])
      (by exact_mod_cast h)
  have h0 : (0:ℚ) ≤ min ((11 * n : ℚ) / 10) 1024 :=
    le_trans (by exact_mod_cast le_trans (by norm_num) h8) hn
  rw [grow, mround_of_nonneg h0]
  exact Int.le_floor.2 (by linarith)

/-! ## Termination and basic structure of the two walks -/

theorem usbWalk_isSome {N : ℤ} :
    ∀ (fuel : ℕ) (n m : ℤ), 8 ≤ n → (N - 2 * m).toNat ≤ fuel →
      (usbWalk fuel N n m).isSome := by
  intro fuel
  induction fuel with
  | zero =>
      intro n m hn hf
      have : ¬ (2 * m + n < N) := by omega
      simp [usbWalk, this]
  | succ fuel ih =>
      intro n m hn hf
      by_cases hc : 2 * m + n < N
      · have h9 : 9 ≤ grow n := grow_lb hn
        have hmeas : (N - 2 * (m + grow n)).toNat ≤ fuel := by omega
        have := ih (grow n) (m + grow n) (grow_ge8 hn) hmeas
        simp only [usbWalk, if_pos hc]
        simpa using this
      · simp [usbWalk, hc]

theorem usbWalk_stable {N : ℤ} :
    ∀ (fuel₁ fuel₂ : ℕ) (n m : ℤ), 8 ≤ n →
      (N - 2 * m).toNat ≤ fuel₁ → (N - 2 * m).toNat ≤ fuel₂ →
      usbWalk fuel₁ N n m = usbWalk fuel₂ N n m := by
  intro fuel₁
  induction fuel₁ with
  | zero =>
      intro fuel₂ n m hn h1 h2
      have hc : ¬ (2 * m + n < N) := by omega
      cases fuel₂ <;> simp [usbWalk, hc]
  | succ fuel ih =>
      intro fuel₂ n m hn h1 h2
      by_cases hc : 2 * m + n < N
      · have h9 : 9 ≤ grow n := grow_lb hn
        obtain ⟨fuel₂', rfl⟩ : ∃ k, fuel₂ = k + 1 := by
          cases fuel₂ with
          | zero => omega
          | succ k => exact ⟨k, rfl⟩
        simp only [usbWalk, if_pos hc]
        rw [ih fuel₂' (grow n) (m + grow n) (grow_ge8 hn) (by omega) (by omega)]
      · cases fuel₂ <;> simp [usbWalk, hc]

theorem usbWalk_usbLoop {N n m : ℤ} (hn : 8 ≤ n) :
    usbWalk (N - 2 * m).toNat N n m = some (usbLoop N n m) := by
  have h := usbWalk_isSome (N := N) (N - 2 * m).toNat n m hn le_rfl
  rw [usbLoop]
  cases hw : usbWalk (N - 2 * m).toNat N n m with
  | none => rw [hw] at h; simp at h
  | some l => simp

theorem lsbWalk_isSome :
    ∀ (fuel : ℕ) (n m : ℤ), 8 ≤ n → m.toNat ≤ fuel →
      (lsbWalk fuel n m).isSome := by
  intro fuel
  induction fuel with
  | zero =>
      intro n m hn hf
      have : ¬ (2 < 2 * m - n) := by omega
      simp [lsbWalk, this]
  | succ fuel ih =>
      intro n m hn hf
      by_cases hc : 2 < 2 * m - n
      · have h9 : 9 ≤ grow n := grow_lb hn
        have hmeas : (m - grow n).toNat ≤ fuel := by omega
        have := ih (grow n) (m - grow n) (grow_ge8 hn) hmeas
        simp only [lsbWalk, if_pos hc]
        simpa using this
      · simp [lsbWalk, hc]

theorem lsbWalk_stable :
    ∀ (fuel₁ fuel₂ : ℕ) (n m : ℤ), 8 ≤ n →
      m.toNat ≤ fuel₁ → m.toNat ≤ fuel₂ →
      lsbWalk fuel₁ n m = lsbWalk fuel₂ n m := by
  intro fuel₁
  induction fuel₁ with
  | zero =>
      intro fuel₂ n m hn h1 h2
      have hc : ¬ (2 < 2 * m - n) := by omega
      cases fuel₂ <;> simp [lsbWalk, hc]
  | succ fuel ih =>
      intro fuel₂ n m hn h1 h2
      by_cases hc : 2 < 2 * m - n
      · have h9 : 9 ≤ grow n := grow_lb hn
        obtain ⟨fuel₂', rfl⟩ : ∃ k, fuel₂ = k + 1 := by
          cases fuel₂ with
          | zero => omega
          | succ k => exact ⟨k, rfl⟩
        simp only [lsbWalk, if_pos hc]
        rw [ih fuel₂' (grow n) (m - grow n) (grow_ge8 hn) (by omega) (by omega)]
      · cases fuel₂ <;> simp [lsbWalk, hc]

theorem lsbWalk_lsbLoop {n m : ℤ} (hn : 8 ≤ n) :
    lsbWalk m.toNat n m = some (lsbLoop n m) := by
  have h := lsbWalk_isSome m.toNat n m hn le_rfl
  rw [lsbLoop]
  cases hw : lsbWalk m.toNat n m with
  | none => rw [hw] at h; simp at h
  | some l => simp

theorem gaps_nil : gaps [] = [] := rfl

theorem gaps_cons2 (a b : ℤ) (t : List ℤ) :
    gaps (a :: b :: t) = (b - a) :: gaps (b :: t) := rfl

theorem gaps_single (a : ℤ) : gaps [a] = [] := rfl

theorem downGaps_nil : downGaps [] = [] := rfl

theorem downGaps_cons2 (a b : ℤ) (t : List ℤ) :
    downGaps (a :: b :: t) = (a - b) :: downGaps (b :: t) := rfl

theorem downGaps_single (a : ℤ) : downGaps [a] = [] := rfl

theorem usbWalk_empty_iff {fuel : ℕ} {N n m : ℤ} {l : List ℤ}
    (h : usbWalk fuel N n m = some l) : l = [] ↔ ¬ (2 * m + n < N) := by
  cases fuel with
  | zero =>
      by_cases hc : 2 * m + n < N <;> simp [usbWalk, hc] at h <;> simp [← h, hc]
  | succ fuel =>
      by_cases hc : 2 * m + n < N
      · simp only [usbWalk, if_pos hc] at h
        rcases Option.map_eq_some'.1 h with ⟨l', _, rfl⟩
        simp [hc]
      · simp [usbWalk, hc] at h; simp [← h, hc]

theorem usbWalk_head {fuel : ℕ} {N n m : ℤ} {l : List ℤ}
    (h : usbWalk fuel N n m = some l) (hne : l ≠ []) : l.head? = some m := by
  have hc : 2 * m + n < N := by
    by_contra hc
    exact hne ((usbWalk_empty_iff h).2 hc)
  cases fuel with
  | zero => simp [usbWalk, hc] at h
  | succ fuel =>
      simp only [usbWalk, if_pos hc] at h
      rcases Option.map_eq_some'.1 h with ⟨l', _, rfl⟩
      rfl

theorem usbWalk_mem {N : ℤ} :
    ∀ {fuel : ℕ} {n m : ℤ} {l : List ℤ}, 8 ≤ n →
      usbWalk fuel N n m = some l → ∀ x ∈ l, m ≤ x ∧ 2 * x + 8 < N := by
  intro fuel
  induction fuel with
  | zero =>
      intro n m l hn h x hx
      by_cases hc : 2 * m + n < N <;> simp [usbWalk, hc] at h
      subst h; simp at hx
  | succ fuel ih =>
      intro n m l hn h x hx
      by_cases hc : 2 * m + n < N
      · simp only [usbWalk, if_pos hc] at h
        rcases Option.map_eq_some'.1 h with ⟨l', hl', rfl⟩
        rcases List.mem_cons.1 hx with rfl | hx'
        · exact ⟨le_refl x, by omega⟩
        · have := ih (grow_ge8 hn) hl' x hx'
          have h9 : 9 ≤ grow n := grow_lb hn
          exact ⟨by omega, this.2⟩
      · simp [usbWalk, hc] at h; subst h; simp at hx

theorem usbWalk_gaps {N : ℤ} :
    ∀ {fuel : ℕ} {n m : ℤ} {l : List ℤ}, 8 ≤ n → n ≤ 1024 →
      usbWalk fuel N n m = some l →
      (∀ g ∈ gaps l, grow n ≤ g ∧ g ≤ 1024) ∧ (gaps l).Sorted (· ≤ ·) := by
  intro fuel
  induction fuel with
  | zero =>
      intro n m l hn _ h
      by_cases hc : 2 * m + n < N <;> simp [usbWalk, hc] at h
      subst h; simp [gaps]
  | succ fuel ih =>
      intro n m l hn hub h
      by_cases hc : 2 * m + n < N
      · simp only [usbWalk, if_pos hc] at h
        rcases Option.map_eq_some'.1 h with ⟨l', hl', rfl⟩
        cases l' with
        | nil => simp [gaps]
        | cons a t =>
            have hhead : a = m + grow n := by
              have := usbWalk_head hl' (by simp)
              simp at this; omega
            have hrec := ih (grow_ge8 hn) (grow_ub hn) hl'
            rw [gaps_cons2]
            have hgg : grow n ≤ grow (grow n) := le_grow (grow_ge8 hn) (grow_ub hn)
            constructor
            · intro g hg
              rcases List.mem_cons.1 hg with rfl | hg'
              · exact ⟨by omega, by have := grow_ub hn; omega⟩
              · have := hrec.1 g hg'
                exact ⟨le_trans hgg this.1, this.2⟩
            · rw [List.sorted_cons]
              refine ⟨fun b hb => ?_, hrec.2⟩
              have := hrec.1 b hb
              omega
      · simp [usbWalk, hc] at h; subst h; simp [gaps]

theorem usbWalk_last {N : ℤ} :
    ∀ {fuel : ℕ} {n m : ℤ} {l : List ℤ} {x : ℤ}, 8 ≤ n →
      usbWalk fuel N n m = some l → l.getLast? = some x →
      N ≤ 2 * x + 3 * 1024 := by
  intro fuel
  induction fuel with
  | zero =>
      intro n m l x hn h hx
      by_cases hc : 2 * m + n < N <;> simp [usbWalk, hc] at h
      subst h; simp at hx
  | succ fuel ih =>
      intro n m l x hn h hx
      by_cases hc : 2 * m + n < N
      · simp only [usbWalk, if_pos hc] at h
        rcases Option.map_eq_some'.1 h with ⟨l', hl', rfl⟩
        cases l' with
        | nil =>
            simp at hx
            have hstop := (usbWalk_empty_iff hl').1 rfl
            have := grow_ub hn
            omega
        | cons a t =>
            rw [List.getLast?_cons_cons] at hx
            exact ih (grow_ge8 hn) hl' hx
      · simp [usbWalk, hc] at h; subst h; simp at hx

theorem lsbWalk_empty_iff {fuel : ℕ} {n m : ℤ} {l : List ℤ}
    (h : lsbWalk fuel n m = some l) : l = [] ↔ ¬ (2 < 2 * m - n) := by
  cases fuel with
  | zero =>
      by_cases hc : 2 < 2 * m - n <;> simp [lsbWalk, hc] at h <;> simp [← h, hc]
  | succ fuel =>
      by_cases hc : 2 < 2 * m - n
      · simp only [lsbWalk, if_pos hc] at h
        rcases Option.map_eq_some'.1 h with ⟨l', _, rfl⟩
        simp [hc]
      · simp [lsbWalk, hc] at h; simp [← h, hc]

theorem lsbWalk_head {fuel : ℕ} {n m : ℤ} {l : List ℤ}
    (h : lsbWalk fuel n m = some l) (hne : l ≠ []) : l.head? = some m := by
  have hc : 2 < 2 * m - n := by
    by_contra hc
    exact hne ((lsbWalk_empty_iff h).2 hc)
  cases fuel with
  | zero => simp [lsbWalk, hc] at h
  | succ fuel =>
      simp only [lsbWalk, if_pos hc] at h
      rcases Option.map_eq_some'.1 h with ⟨l', _, rfl⟩
      rfl

theorem lsbWalk_mem :
    ∀ {fuel : ℕ} {n m : ℤ} {l : List ℤ}, 8 ≤ n →
      lsbWalk fuel n m = some l → ∀ x ∈ l, x ≤ m ∧ 6 ≤ x := by
  intro fuel
  induction fuel with
  | zero =>
      intro n m l hn h x hx
      by_cases hc : 2 < 2 * m - n <;> simp [lsbWalk, hc] at h
      subst h; simp at hx
  | succ fuel ih =>
      intro n m l hn h x hx
      by_cases hc : 2 < 2 * m - n
      · simp only [lsbWalk, if_pos hc] at h
        rcases Option.map_eq_some'.1 h with ⟨l', hl', rfl⟩
        rcases List.mem_cons.1 hx with rfl | hx'
        · exact ⟨le_refl x, by omega⟩
        · have := ih (grow_ge8 hn) hl' x hx'
          have h9 : 9 ≤ grow n := grow_lb hn
          exact ⟨by omega, this.2⟩
      · simp [lsbWalk, hc] at h; subst h; simp at hx

theorem lsbWalk_downGaps :
    ∀ {fuel : ℕ} {n m : ℤ} {l : List ℤ}, 8 ≤ n → n ≤ 1024 →
      lsbWalk fuel n m = some l →
      (∀ g ∈ downGaps l, grow n ≤ g ∧ g ≤ 1024) ∧ (downGaps l).Sorted (· ≤ ·) := by
  intro fuel
  induction fuel with
  | zero =>
      intro n m l hn _ h
      by_cases hc : 2 < 2 * m - n <;> simp [lsbWalk, hc] at h
      subst h; simp [downGaps]
  | succ fuel ih =>
      intro n m l hn hub h
      by_cases hc : 2 < 2 * m - n
      · simp only [lsbWalk, if_pos hc] at h
        rcases Option.map_eq_some'.1 h with ⟨l', hl', rfl⟩
        cases l' with
        | nil => simp [downGaps]
        | cons a t =>
            have hhead : a = m - grow n := by
              have := lsbWalk_head hl' (by simp)
              simp at this; omega
            have hrec := ih (grow_ge8 hn) (grow_ub hn) hl'
            rw [downGaps_cons2]
            have hgg : grow n ≤ grow (grow n) := le_grow (grow_ge8 hn) (grow_ub hn)
            constructor
            · intro g hg
              rcases List.mem_cons.1 hg with rfl | hg'
              · exact ⟨by omega, by have := grow_ub hn; omega⟩
              · have := hrec.1 g hg'
                exact ⟨le_trans hgg this.1, this.2⟩
            · rw [List.sorted_cons]
              refine ⟨fun b hb => ?_, hrec.2⟩
              have := hrec.1 b hb
              omega
      · simp [lsbWalk, hc] at h; subst h; simp [downGaps]

theorem lsbWalk_last :
    ∀ {fuel : ℕ} {n m : ℤ} {l : List ℤ} {x : ℤ}, 8 ≤ n →
      lsbWalk fuel n m = some l → l.getLast? = some x →
      2 * x ≤ 2 + 3 * 1024 := by
  intro fuel
  induction fuel with
  | zero =>
      intro n m l x hn h hx
      by_cases hc : 2 < 2 * m - n <;> simp [lsbWalk, hc] at h
      subst h; simp at hx
  | succ fuel ih =>
      intro n m l x hn h hx
      by_cases hc : 2 < 2 * m - n
      · simp only [lsbWalk, if_pos hc] at h
        rcases Option.map_eq_some'.1 h with ⟨l', hl', rfl⟩
        cases l' with
        | nil =>
            simp at hx
            have hstop := (lsbWalk_empty_iff hl').1 rfl
            have := grow_ub hn
            omega
        | cons a t =>
            rw [List.getLast?_cons_cons] at hx
            exact ih (grow_ge8 hn) hl' hx
      · simp [lsbWalk, hc] at h; subst h; simp at hx

/-! ## `arange` facts -/

theorem arange_length (s e st : ℤ) :
    (arange s e st).length = (⌈(e - s : ℚ) / (st : ℚ)⌉).toNat := by
  rw [arange, List.length_map, List.length_range]

theorem arange_ne_nil_iff (s e st : ℤ) :
    arange s e st ≠ [] ↔ 0 < (⌈(e - s : ℚ) / (st : ℚ)⌉).toNat := by
  rw [← List.length_pos, arange_length]

theorem arange_getD (s e st : ℤ) (k : ℕ) (hk : k < (arange s e st).length) :
    (arange s e st).getD k 0 = s + k * st := by
  rw [List.getD_eq_getElem _ _ hk]
  simp only [arange, List.getElem_map, List.getElem_range]

theorem arange_getElem? (s e st : ℤ) (k : ℕ) (hk : k < (arange s e st).length) :
    (arange s e st)[k]? = some (s + k * st) := by
  rw [List.getElem?_eq_getElem hk]
  simp only [arange, List.getElem_map, List.getElem_range]

theorem ceil_div8_eq {a c : ℤ} (h1 : 8 * c - 8 < a) (h2 : a ≤ 8 * c) :
    ⌈(a : ℚ) / 8⌉ = c := by
  rw [Int.ceil_eq_iff]
  have h1q : (8 * c - 8 : ℚ) < a := by exact_mod_cast h1
  have h2q : (a : ℚ) ≤ 8 * c := by exact_mod_cast h2
  constructor
  · rw [lt_div_iff (by norm_num : (0:ℚ) < 8)]; push_cast; linarith
  · rw [div_le_iff (by norm_num : (0:ℚ) < 8)]; push_cast; linarith

theorem arange_length_pos8 {s e c : ℤ} (h1 : 8 * c - 8 < e - s) (h2 : e - s ≤ 8 * c) :
    (arange s e 8).length = c.toNat := by
  rw [arange_length]
  have hq : ((e : ℚ) - s) / ((8:ℤ):ℚ) = ((e - s : ℤ) : ℚ) / 8 := by push_cast; ring
  rw [hq, ceil_div8_eq h1 h2]

theorem arange_length_neg8 {s e c : ℤ} (h1 : 8 * c - 8 < s - e) (h2 : s - e ≤ 8 * c) :
    (arange s e (-8)).length = c.toNat := by
  rw [arange_length]
  have hq : ((e : ℚ) - s) / ((-8:ℤ):ℚ) = ((s - e : ℤ) : ℚ) / 8 := by push_cast; ring
  rw [hq, ceil_div8_eq h1 h2]

theorem list_eq_singleton_of {l : List ℤ} {a : ℤ}
    (hl : l.length = 1) (h0 : l.getD 0 0 = a) : l = [a] := by
  match l, hl with
  | [x], _ => simp at h0; rw [h0]

theorem list_eq_pair_of {l : List ℤ} {a b : ℤ}
    (hl : l.length = 2) (h0 : l.getD 0 0 = a) (h1 : l.getD 1 0 = b) : l = [a, b] := by
  match l, hl with
  | [x, y], _ => simp at h0 h1; rw [h0, h1]

/-! ## Explicit forms of the initial edge lists -/

theorem bin1V_le_tbin {N : ℕ} {tbin : ℤ} {f0 : ℚ}
    (h : bin0V N f0 < tbin) : bin1V N tbin f0 ≤ tbin := by
  unfold bin1V
  omega

theorem bindV_nonneg {N : ℕ} {tbin : ℤ} {f0 : ℚ} :
    0 ≤ bindV N tbin f0 ∧ bindV N tbin f0 ≤ 7 := by
  unfold bindV bin1V
  omega

theorem eight_dvd_tbin_sub_bin1 {N : ℕ} {tbin : ℤ} {f0 : ℚ} :
    8 ∣ (tbin - bin1V N tbin f0) := by
  unfold bin1V
  omega

theorem arange1_explicit {N : ℕ} {tbin : ℤ} {f0 : ℚ}
    (h : bin0V N f0 < tbin) :
    (arange (bin1V N tbin f0) (tbin + 1) 8).length = toneIdx N tbin f0 + 1 ∧
      (arange (bin1V N tbin f0) (tbin + 1) 8).getLast? = some tbin := by
  set b1 := bin1V N tbin f0 with hb1
  obtain ⟨d, hd⟩ : 8 ∣ (tbin - b1) := eight_dvd_tbin_sub_bin1
  have hble : b1 ≤ tbin := bin1V_le_tbin h
  have hd0 : 0 ≤ d := by omega
  have hlen : (arange b1 (tbin + 1) 8).length = (d + 1).toNat :=
    arange_length_pos8 (by omega) (by omega)
  have htone : toneIdx N tbin f0 = d.toNat := by
    unfold toneIdx
    rw [← hb1, hd]
    congr 1
    omega
  refine ⟨by rw [hlen, htone]; omega, ?_⟩
  rw [List.getLast?_eq_getElem?, hlen]
  have hidx : (d + 1).toNat - 1 < (arange b1 (tbin + 1) 8).length := by
    rw [hlen]; omega
  rw [arange_getElem? _ _ _ _ hidx]
  congr 1
  have hcast : (((d + 1).toNat - 1 : ℕ) : ℤ) = d := by omega
  rw [hcast]
  omega

theorem arange2_explicit {N : ℕ} {tbin : ℤ} {f0 : ℚ} :
    arange (tbin + 3) (tbin + bindV N tbin f0 + 1) 8 =
      if 3 ≤ bindV N tbin f0 then [tbin + 3] else [] := by
  have hbd := @bindV_nonneg N tbin f0
  set bd := bindV N tbin f0 with hbdd
  by_cases h3 : 3 ≤ bd
  · rw [if_pos h3]
    have hlen : (arange (tbin + 3) (tbin + bd + 1) 8).length = (1 : ℤ).toNat :=
      arange_length_pos8 (by omega) (by omega)
    refine list_eq_singleton_of (by rw [hlen]; rfl) ?_
    rw [arange_getD _ _ _ 0 (by rw [hlen]; norm_num)]
    simp
  · rw [if_neg h3]
    have hlen : (arange (tbin + 3) (tbin + bd + 1) 8).length = (0 : ℤ).toNat :=
      arange_length_pos8 (by omega) (by omega)
    rw [Int.toNat_zero] at hlen
    exact List.length_eq_zero.1 hlen

theorem lsbInit_explicit {N : ℕ} {tbin : ℤ} {f0 : ℚ} :
    lsbInit N tbin f0 =
      if bindV N tbin f0 = 0 then []
      else if bindV N tbin f0 ≤ 4 then [bin1V N tbin f0 - 1]
      else [bin1V N tbin f0 - 1, bin1V N tbin f0 - 9] := by
  have hbd := @bindV_nonneg N tbin f0
  unfold lsbInit
  set b1 := bin1V N tbin f0 with hb1
  set bd := bindV N tbin f0 with hbdd
  by_cases h0 : bd = 0
  · rw [if_pos h0]
    have hlen : (arange b1 (b1 - 2 * bd + 1) (-8)).length = (0:ℤ).toNat :=
      arange_length_neg8 (by omega) (by omega)
    rw [Int.toNat_zero] at hlen
    rw [List.length_eq_zero.1 hlen]
    rfl
  · rw [if_neg h0]
    by_cases h4 : bd ≤ 4
    · rw [if_pos h4]
      have hlen : (arange b1 (b1 - 2 * bd + 1) (-8)).length = (1:ℤ).toNat :=
        arange_length_neg8 (by omega) (by omega)
      have : arange b1 (b1 - 2 * bd + 1) (-8) = [b1] := by
        refine list_eq_singleton_of (by rw [hlen]; rfl) ?_
        rw [arange_getD _ _ _ 0 (by rw [hlen]; norm_num)]
        simp
      rw [this]
      rfl
    · rw [if_neg h4]
      have hlen : (arange b1 (b1 - 2 * bd + 1) (-8)).length = (2:ℤ).toNat :=
        arange_length_neg8 (by omega) (by omega)
      have : arange b1 (b1 - 2 * bd + 1) (-8) = [b1, b1 - 8] := by
        refine list_eq_pair_of (by rw [hlen]; rfl) ?_ ?_
        · rw [arange_getD _ _ _ 0 (by rw [hlen]; norm_num)]
          simp
        · rw [arange_getD _ _ _ 1 (by rw [hlen]; norm_num)]
          ring
      rw [this]
      norm_num
      omega

/-! ## Generic facts about `gaps` and `downGaps` -/

theorem gaps_length (l : List ℤ) : (gaps l).length = l.length - 1 := by
  rw [gaps, List.length_map, List.length_zip, List.length_tail]
  omega

theorem downGaps_length (l : List ℤ) : (downGaps l).length = l.length - 1 := by
  rw [downGaps, List.length_map, List.length_zip, List.length_tail]
  omega

theorem gaps_getElem (l : List ℤ) (i : ℕ) (hi : i + 1 < l.length) :
    (gaps l).getD i 0 = l.getD (i + 1) 0 - l.getD i 0 := by
  have hlen : i < (gaps l).length := by rw [gaps_length]; omega
  rw [List.getD_eq_getElem _ _ hlen,
    List.getD_eq_getElem _ _ (by omega : i + 1 < l.length),
    List.getD_eq_getElem _ _ (by omega : i < l.length)]
  have hzip : i < (l.zip l.tail).length := by
    rw [List.length_zip, List.length_tail]; omega
  simp only [gaps]
  rw [List.getElem_map, List.getElem_zip]
  congr 1
  rw [List.getElem_tail]

theorem downGaps_getElem (l : List ℤ) (i : ℕ) (hi : i + 1 < l.length) :
    (downGaps l).getD i 0 = l.getD i 0 - l.getD (i + 1) 0 := by
  have hlen : i < (downGaps l).length := by rw [downGaps_length]; omega
  rw [List.getD_eq_getElem _ _ hlen,
    List.getD_eq_getElem _ _ (by omega : i + 1 < l.length),
    List.getD_eq_getElem _ _ (by omega : i < l.length)]
  have hzip : i < (l.zip l.tail).length := by
    rw [List.length_zip, List.length_tail]; omega
  simp only [downGaps]
  rw [List.getElem_map, List.getElem_zip]
  congr 1
  rw [List.getElem_tail]

theorem gaps_append :
    ∀ (A B : List ℤ), A ≠ [] → B ≠ [] →
      gaps (A ++ B) =
        gaps A ++ (B.head?.getD 0 - A.getLast?.getD 0) :: gaps B := by
  intro A
  induction A with
  | nil => intro B h; exact absurd rfl h
  | cons a t ih =>
      intro B _ hB
      cases t with
      | nil =>
          rcases B with _ | ⟨b, tb⟩
          · exact absurd rfl hB
          · simp [gaps_cons2, gaps_single]
      | cons a' t' =>
          have hihs := ih B (by simp) hB
          have : (a :: a' :: t') ++ B = a :: ((a' :: t') ++ B) := by simp
          rw [this]
          have hcons : (a' :: t') ++ B = a' :: (t' ++ B) := by simp
          rw [hcons, gaps_cons2, ← hcons, hihs, gaps_cons2]
          simp [List.getLast?_cons_cons]

theorem downGaps_append :
    ∀ (A B : List ℤ), A ≠ [] → B ≠ [] →
      downGaps (A ++ B) =
        downGaps A ++ (A.getLast?.getD 0 - B.head?.getD 0) :: downGaps B := by
  intro A
  induction A with
  | nil => intro B h; exact absurd rfl h
  | cons a t ih =>
      intro B _ hB
      cases t with
      | nil =>
          rcases B with _ | ⟨b, tb⟩
          · exact absurd rfl hB
          · simp [downGaps_cons2, downGaps_single]
      | cons a' t' =>
          have hihs := ih B (by simp) hB
          have : (a :: a' :: t') ++ B = a :: ((a' :: t') ++ B) := by simp
          rw [this]
          have hcons : (a' :: t') ++ B = a' :: (t' ++ B) := by simp
          rw [hcons, downGaps_cons2, ← hcons, hihs, downGaps_cons2]
          simp [List.getLast?_cons_cons]

/-! ## Element bounds for `arange` with step `±8` -/

theorem arange_mem_pos8 {s e x : ℤ} (hx : x ∈ arange s e 8) :
    s ≤ x ∧ x < e := by
  rcases List.mem_iff_getElem.1 hx with ⟨k, hk, hkx⟩
  have hget : (arange s e 8).getD k 0 = s + k * 8 := arange_getD _ _ _ k hk
  rw [List.getD_eq_getElem _ _ hk, hkx] at hget
  have hlen := arange_length s e (8 : ℤ)
  have hkc : (k : ℤ) < ⌈((e : ℚ) - s) / ((8:ℤ):ℚ)⌉ := by
    rw [hlen] at hk
    omega
  have hlt := Int.lt_ceil.1 hkc
  push_cast at hlt
  rw [lt_div_iff (by norm_num : (0:ℚ) < 8)] at hlt
  have hzx : 8 * (k : ℤ) < e - s := by exact_mod_cast (by linarith : (8:ℚ) * k < (e:ℚ) - s)
  constructor
  · have : (0:ℤ) ≤ (k : ℤ) * 8 := by positivity
    omega
  · omega

theorem arange_mem_neg8 {s e x : ℤ} (hx : x ∈ arange s e (-8)) :
    e < x ∧ x ≤ s := by
  rcases List.mem_iff_getElem.1 hx with ⟨k, hk, hkx⟩
  have hget : (arange s e (-8)).getD k 0 = s + k * (-8) := arange_getD _ _ _ k hk
  rw [List.getD_eq_getElem _ _ hk, hkx] at hget
  have hlen := arange_length s e (-8 : ℤ)
  have hkc : (k : ℤ) < ⌈((e : ℚ) - s) / ((-8:ℤ):ℚ)⌉ := by
    rw [hlen] at hk
    omega
  have hlt := Int.lt_ceil.1 hkc
  push_cast at hlt
  have heq : ((e : ℚ) - s) / (-8 : ℚ) = ((s : ℚ) - e) / 8 := by ring
  rw [heq, lt_div_iff (by norm_num : (0:ℚ) < 8)] at hlt
  have hzx : 8 * (k : ℤ) < s - e := by exact_mod_cast (by linarith : (8:ℚ) * k < (s:ℚ) - e)
  constructor
  · omega
  · have : (0:ℤ) ≤ (k : ℤ) * 8 := by positivity
    omega

theorem arange_head_pos8 {s e : ℤ} (h : arange s e 8 ≠ []) :
    (arange s e 8).head? = some s := by
  have hlen : 0 < (arange s e 8).length := List.length_pos.2 h
  rw [List.head?_eq_getElem?, arange_getElem? _ _ _ 0 hlen]
  simp

theorem arange_head_neg8 {s e : ℤ} (h : arange s e (-8) ≠ []) :
    (arange s e (-8)).head? = some s := by
  have hlen : 0 < (arange s e (-8)).length := List.length_pos.2 h
  rw [List.head?_eq_getElem?, arange_getElem? _ _ _ 0 hlen]
  simp


/-! ## Bridged facts about the totalized loops -/

theorem usbLoop_mem {N n m : ℤ} (hn : 8 ≤ n) {x : ℤ} (hx : x ∈ usbLoop N n m) :
    m ≤ x ∧ 2 * x + 8 < N :=
  usbWalk_mem hn (usbWalk_usbLoop hn) x hx

theorem usbLoop_empty_iff {N n m : ℤ} (hn : 8 ≤ n) :
    usbLoop N n m = [] ↔ ¬ (2 * m + n < N) :=
  usbWalk_empty_iff (usbWalk_usbLoop hn)

theorem usbLoop_head {N n m : ℤ} (hn : 8 ≤ n) (hne : usbLoop N n m ≠ []) :
    (usbLoop N n m).head? = some m :=
  usbWalk_head (usbWalk_usbLoop hn) hne

theorem usbLoop_gaps {N n m : ℤ} (hn : 8 ≤ n) (hub : n ≤ 1024) :
    (∀ g ∈ gaps (usbLoop N n m), grow n ≤ g ∧ g ≤ 1024) ∧
      (gaps (usbLoop N n m)).Sorted (· ≤ ·) :=
  usbWalk_gaps hn hub (usbWalk_usbLoop hn)

theorem usbLoop_last {N n m : ℤ} (hn : 8 ≤ n) {x : ℤ}
    (hx : (usbLoop N n m).getLast? = some x) : N ≤ 2 * x + 3 * 1024 :=
  usbWalk_last hn (usbWalk_usbLoop hn) hx

theorem lsbLoop_mem {n m : ℤ} (hn : 8 ≤ n) {x : ℤ} (hx : x ∈ lsbLoop n m) :
    x ≤ m ∧ 6 ≤ x :=
  lsbWalk_mem hn (lsbWalk_lsbLoop hn) x hx

theorem lsbLoop_empty_iff {n m : ℤ} (hn : 8 ≤ n) :
    lsbLoop n m = [] ↔ ¬ (2 < 2 * m - n) :=
  lsbWalk_empty_iff (lsbWalk_lsbLoop hn)

theorem lsbLoop_head {n m : ℤ} (hn : 8 ≤ n) (hne : lsbLoop n m ≠ []) :
    (lsbLoop n m).head? = some m :=
  lsbWalk_head (lsbWalk_lsbLoop hn) hne

theorem lsbLoop_downGaps {n m : ℤ} (hn : 8 ≤ n) (hub : n ≤ 1024) :
    (∀ g ∈ downGaps (lsbLoop n m), grow n ≤ g ∧ g ≤ 1024) ∧
      (downGaps (lsbLoop n m)).Sorted (· ≤ ·) :=
  lsbWalk_downGaps hn hub (lsbWalk_lsbLoop hn)

theorem lsbLoop_last {n m : ℤ} (hn : 8 ≤ n) {x : ℤ}
    (hx : (lsbLoop n m).getLast? = some x) : 2 * x ≤ 2 + 3 * 1024 :=
  lsbWalk_last hn (lsbWalk_lsbLoop hn) hx

/-! ## Structure of `usbInit`, `usb1V`, `lsb2V` -/

theorem usbInit_getLast {N : ℕ} {tbin : ℤ} {f0 : ℚ} (h : bin0V N f0 < tbin) :
    usbInit N tbin f0 ≠ [] ∧
      (usbInit N tbin f0).getLast? =
        some (if 3 ≤ bindV N tbin f0 then tbin + 3 else tbin) := by
  obtain ⟨hlen1, hlast1⟩ := arange1_explicit h
  have hA1ne : arange (bin1V N tbin f0) (tbin + 1) 8 ≠ [] := by
    intro hnil; rw [hnil] at hlen1; simp at hlen1
  unfold usbInit
  rw [arange2_explicit]
  by_cases h3 : 3 ≤ bindV N tbin f0
  · rw [if_pos h3, if_pos h3]
    exact ⟨by simp, List.getLast?_concat _⟩
  · rw [if_neg h3, if_neg h3, List.append_nil]
    exact ⟨hA1ne, hlast1⟩

theorem usb1V_ne_nil {N : ℕ} {tbin : ℤ} {f0 : ℚ} (h : bin0V N f0 < tbin) :
    usb1V N tbin f0 ≠ [] := by
  obtain ⟨hne, _⟩ := usbInit_getLast h
  unfold usb1V
  simp [hne]

theorem usb1V_head {N : ℕ} {tbin : ℤ} {f0 : ℚ} (h : bin0V N f0 < tbin) :
    (usb1V N tbin f0).head? = some (bin1V N tbin f0) := by
  obtain ⟨hlen1, _⟩ := arange1_explicit h
  have hA1ne : arange (bin1V N tbin f0) (tbin + 1) 8 ≠ [] := by
    intro hnil; rw [hnil] at hlen1; simp at hlen1
  unfold usb1V usbInit
  rw [List.append_assoc, List.head?_append_of_ne_nil _ hA1ne]
  exact arange_head_pos8 hA1ne

theorem usb1V_mem {N : ℕ} {tbin : ℤ} {f0 : ℚ} (h : bin0V N f0 < tbin)
    (hN2 : tbin + 3 ≤ (N : ℤ) / 2) :
    ∀ x ∈ usb1V N tbin f0, bin1V N tbin f0 ≤ x ∧ x ≤ (N : ℤ) / 2 := by
  intro x hx
  obtain ⟨hne, hlast⟩ := usbInit_getLast h
  have hble := bin1V_le_tbin h
  unfold usb1V at hx
  rcases List.mem_append.1 hx with hx | hx
  · unfold usbInit at hx
    rcases List.mem_append.1 hx with hx | hx
    · have := arange_mem_pos8 hx
      omega
    · rw [arange2_explicit] at hx
      by_cases h3 : 3 ≤ bindV N tbin f0
      · rw [if_pos h3] at hx
        simp at hx
        omega
      · rw [if_neg h3] at hx
        simp at hx
  · rw [hlast] at hx
    have hmem := usbLoop_mem (le_refl (8:ℤ)) hx
    have hN : 0 ≤ (N : ℤ) := Int.ofNat_nonneg N
    by_cases h3 : 3 ≤ bindV N tbin f0 <;> simp [h3] at hx hmem <;> omega

theorem usb1V_last {N : ℕ} {tbin : ℤ} {f0 : ℚ} (h : bin0V N f0 < tbin) :
    ∃ x, (usb1V N tbin f0).getLast? = some x ∧ (N : ℤ) ≤ 2 * x + 3 * 1024 ∧
      (tbin + 3 ≤ (N : ℤ) / 2 → x ≤ (N : ℤ) / 2) := by
  obtain ⟨hne, hlast⟩ := usbInit_getLast h
  have hble := bin1V_le_tbin h
  by_cases hloop :
      usbLoop (N : ℤ) 8 ((usbInit N tbin f0).getLast?.getD 0 + 8) = []
  · refine ⟨(usbInit N tbin f0).getLast?.getD 0, ?_, ?_, ?_⟩
    · unfold usb1V
      rw [hloop, List.append_nil, hlast]
      rfl
    · have hstop := (usbLoop_empty_iff (le_refl (8:ℤ))).1 hloop
      omega
    · intro h4
      rw [hlast]
      by_cases h3 : 3 ≤ bindV N tbin f0 <;> simp [h3] <;> omega
  · have hsome : ∃ x, (usbLoop (N : ℤ) 8
        ((usbInit N tbin f0).getLast?.getD 0 + 8)).getLast? = some x := by
      cases hg : (usbLoop (N : ℤ) 8
          ((usbInit N tbin f0).getLast?.getD 0 + 8)).getLast? with
      | none => exact absurd (List.getLast?_eq_none_iff.1 hg) hloop
      | some x => exact ⟨x, rfl⟩
    obtain ⟨x, hx⟩ := hsome
    refine ⟨x, ?_, usbLoop_last (le_refl (8:ℤ)) hx, fun h4 => ?_⟩
    · unfold usb1V
      rw [List.getLast?_append_of_ne_nil _ hloop]
      exact hx
    · have hmem := usbLoop_mem (le_refl (8:ℤ)) (List.mem_of_mem_getLast? hx)
      omega

theorem lsb2V_head {N : ℕ} {tbin : ℤ} {f0 : ℚ}
    (hbd : bindV N tbin f0 ≠ 0) :
    (lsb2V N tbin f0).head? = some (bin1V N tbin f0 - 1) ∧
      lsb2V N tbin f0 ≠ [] := by
  have hini := @lsbInit_explicit N tbin f0
  rw [if_neg hbd] at hini
  unfold lsb2V
  rw [hini]
  by_cases h4 : bindV N tbin f0 ≤ 4
  · rw [if_pos h4]
    exact ⟨rfl, by simp⟩
  · rw [if_neg h4]
    exact ⟨rfl, by simp⟩

theorem lsb2V_mem {N : ℕ} {tbin : ℤ} {f0 : ℚ}
    (hbd : bindV N tbin f0 ≠ 0) (h8 : 8 ≤ bin0V N f0) :
    ∀ x ∈ lsb2V N tbin f0, 1 ≤ x ∧ x ≤ bin1V N tbin f0 - 1 := by
  have hini := @lsbInit_explicit N tbin f0
  rw [if_neg hbd] at hini
  have hb1 : bin1V N tbin f0 = bin0V N f0 + bindV N tbin f0 := by
    unfold bindV
    ring
  have hbb := @bindV_nonneg N tbin f0
  intro x hx
  unfold lsb2V at hx
  rw [hini] at hx
  by_cases h4 : bindV N tbin f0 ≤ 4
  · rw [if_pos h4] at hx
    rcases List.mem_append.1 hx with hx | hx
    · simp at hx
      omega
    · have hm : ([bin1V N tbin f0 - 1] : List ℤ).getLast?.getD 0 - 8 =
          bin1V N tbin f0 - 9 := by
        simp only [List.getLast?_singleton, Option.getD_some]
        ring
      rw [hm] at hx
      have := lsbLoop_mem (le_refl (8:ℤ)) hx
      omega
  · rw [if_neg h4] at hx
    rcases List.mem_append.1 hx with hx | hx
    · simp at hx
      rcases hx with rfl | rfl <;> omega
    · have hm : ([bin1V N tbin f0 - 1, bin1V N tbin f0 - 9] : List ℤ).getLast?.getD 0 - 8 =
          bin1V N tbin f0 - 17 := by
        simp only [List.getLast?_cons_cons, List.getLast?_singleton, Option.getD_some]
        ring
      rw [hm] at hx
      have := lsbLoop_mem (le_refl (8:ℤ)) hx
      omega

theorem lsb2V_last {N : ℕ} {tbin : ℤ} {f0 : ℚ}
    (hbd : bindV N tbin f0 ≠ 0) :
    ∃ x, (lsb2V N tbin f0).getLast? = some x ∧ x ≤ 1537 := by
  have hini := @lsbInit_explicit N tbin f0
  rw [if_neg hbd] at hini
  by_cases hloop :
      lsbLoop 8 ((lsbInit N tbin f0).getLast?.getD 0 - 8) = []
  · have hstop := (lsbLoop_empty_iff (le_refl (8:ℤ))).1 hloop
    refine ⟨(lsbInit N tbin f0).getLast?.getD 0, ?_, by omega⟩
    unfold lsb2V
    rw [hloop, List.append_nil]
    rw [hini]
    by_cases h4 : bindV N tbin f0 ≤ 4
    · rw [if_pos h4]
      rfl
    · rw [if_neg h4]
      rfl
  · have hsome : ∃ x, (lsbLoop 8
        ((lsbInit N tbin f0).getLast?.getD 0 - 8)).getLast? = some x := by
      cases hg : (lsbLoop 8
          ((lsbInit N tbin f0).getLast?.getD 0 - 8)).getLast? with
      | none => exact absurd (List.getLast?_eq_none_iff.1 hg) hloop
      | some x => exact ⟨x, rfl⟩
    obtain ⟨x, hx⟩ := hsome
    have := lsbLoop_last (le_refl (8:ℤ)) hx
    refine ⟨x, ?_, by omega⟩
    unfold lsb2V
    rw [List.getLast?_append_of_ne_nil _ hloop]
    exact hx

theorem lsb_cons_downGaps (x : ℤ) :
    (downGaps (x :: lsbLoop 8 (x - 8))).Sorted (· ≤ ·) ∧
      ∀ g ∈ downGaps (x :: lsbLoop 8 (x - 8)), 8 ≤ g ∧ g ≤ 1024 := by
  cases hl : lsbLoop 8 (x - 8) with
  | nil => exact ⟨by simp [downGaps_single], by simp [downGaps_single]⟩
  | cons a t =>
      have hhead : a = x - 8 := by
        have hh := lsbLoop_head (n := 8) (m := x - 8) (le_refl (8:ℤ)) (by rw [hl]; simp)
        rw [hl] at hh
        simp at hh
        omega
      subst hhead
      have hfacts := lsbLoop_downGaps (n := 8) (m := x - 8) (le_refl (8:ℤ)) (by norm_num)
      rw [hl] at hfacts
      rw [downGaps_cons2]
      have hx8 : x - (x - 8) = 8 := by ring
      rw [hx8]
      constructor
      · rw [List.sorted_cons]
        exact ⟨fun b hb => by have := hfacts.1 b hb; have := grow_lb (le_refl (8:ℤ)); omega,
          hfacts.2⟩
      · intro g hg
        rcases List.mem_cons.1 hg with rfl | hg'
        · norm_num
        · have := hfacts.1 g hg'
          have := grow_ge8 (le_refl (8:ℤ))
          omega

theorem lsb2V_downGaps {N : ℕ} {tbin : ℤ} {f0 : ℚ}
    (hbd : bindV N tbin f0 ≠ 0) :
    (downGaps (lsb2V N tbin f0)).Sorted (· ≤ ·) ∧
      ∀ g ∈ downGaps (lsb2V N tbin f0), 8 ≤ g ∧ g ≤ 1024 := by
  have hini := @lsbInit_explicit N tbin f0
  rw [if_neg hbd] at hini
  unfold lsb2V
  rw [hini]
  by_cases h4 : bindV N tbin f0 ≤ 4
  · rw [if_pos h4]
    have hA : ([bin1V N tbin f0 - 1] : List ℤ) ++
        lsbLoop 8 (([bin1V N tbin f0 - 1] : List ℤ).getLast?.getD 0 - 8) =
        (bin1V N tbin f0 - 1) :: lsbLoop 8 (bin1V N tbin f0 - 1 - 8) := by
      simp only [List.getLast?_singleton, Option.getD_some, List.singleton_append]
    rw [hA]
    exact lsb_cons_downGaps (bin1V N tbin f0 - 1)
  · rw [if_neg h4]
    have hA : ([bin1V N tbin f0 - 1, bin1V N tbin f0 - 9] : List ℤ) ++
        lsbLoop 8 (([bin1V N tbin f0 - 1, bin1V N tbin f0 - 9] : List ℤ).getLast?.getD 0 - 8) =
        (bin1V N tbin f0 - 1) :: (bin1V N tbin f0 - 9) ::
          lsbLoop 8 (bin1V N tbin f0 - 9 - 8) := by
      simp only [List.getLast?_cons_cons, List.getLast?_singleton, Option.getD_some,
        List.cons_append, List.singleton_append, List.nil_append]
    rw [hA, downGaps_cons2]
    have hinner := lsb_cons_downGaps (bin1V N tbin f0 - 9)
    have h8 : bin1V N tbin f0 - 1 - (bin1V N tbin f0 - 9) = 8 := by ring
    rw [h8]
    constructor
    · rw [List.sorted_cons]
      exact ⟨fun b hb => (hinner.2 b hb).1, hinner.1⟩
    · intro g hg
      rcases List.mem_cons.1 hg with rfl | hg'
      · norm_num
      · exact hinner.2 g hg'


theorem gaps_arange1 {N : ℕ} {tbin : ℤ} {f0 : ℚ} (h : bin0V N f0 < tbin) :
    gaps (arange (bin1V N tbin f0) (tbin + 1) 8) =
      List.replicate (toneIdx N tbin f0) 8 := by
  obtain ⟨hlen, _⟩ := arange1_explicit h
  apply List.ext_getElem
  · rw [gaps_length, hlen, List.length_replicate]
    omega
  · intro i h1 h2
    have h1' : i < (gaps (arange (bin1V N tbin f0) (tbin + 1) 8)).length := h1
    rw [gaps_length, hlen] at h1'
    have hi1 : i + 1 < (arange (bin1V N tbin f0) (tbin + 1) 8).length := by
      rw [hlen]; omega
    have hkey := gaps_getElem (arange (bin1V N tbin f0) (tbin + 1) 8) i hi1
    rw [List.getD_eq_getElem _ _ h1] at hkey
    rw [hkey, arange_getD _ _ _ (i + 1) hi1, arange_getD _ _ _ i (by rw [hlen]; omega),
      List.getElem_replicate]
    push_cast
    ring

theorem usb1V_gaps {N : ℕ} {tbin : ℤ} {f0 : ℚ} (h : bin0V N f0 < tbin) :
    ∃ t : List ℤ,
      gaps (usb1V N tbin f0) = List.replicate (toneIdx N tbin f0) 8 ++ t ∧
      (t = [] ∨ ∃ g r, t = g :: r ∧ (g = 3 ∨ g = 8) ∧ r.Sorted (· ≤ ·) ∧
        ∀ x ∈ r, 8 ≤ x ∧ x ≤ 1024) := by
  obtain ⟨hlen1, hlast1⟩ := arange1_explicit h
  have hA1ne : arange (bin1V N tbin f0) (tbin + 1) 8 ≠ [] := by
    intro hnil; rw [hnil] at hlen1; simp at hlen1
  obtain ⟨hIne, hIlast⟩ := usbInit_getLast h
  set A1 := arange (bin1V N tbin f0) (tbin + 1) 8 with hA1
  set loopL := usbLoop (N : ℤ) 8 ((usbInit N tbin f0).getLast?.getD 0 + 8) with hloopL
  have hloopfacts := usbLoop_gaps (N := (N:ℤ))
    (m := (usbInit N tbin f0).getLast?.getD 0 + 8) (le_refl (8:ℤ)) (by norm_num)
  have hloop8 : ∀ x ∈ gaps loopL, 8 ≤ x ∧ x ≤ 1024 := by
    intro x hx
    have hg1 := hloopfacts.1 x hx
    have hg2 := grow_ge8 (le_refl (8:ℤ))
    exact ⟨by omega, hg1.2⟩
  have hgrow := grow_ge8 (le_refl (8:ℤ))
  by_cases h3 : 3 ≤ bindV N tbin f0
  · -- usbInit = A1 ++ [tbin + 3]
    have hI : usbInit N tbin f0 = A1 ++ [tbin + 3] := by
      unfold usbInit
      rw [arange2_explicit, if_pos h3]
    rw [if_pos h3] at hIlast
    have hlastD : (usbInit N tbin f0).getLast?.getD 0 = tbin + 3 := by
      rw [hIlast]; rfl
    by_cases hle : loopL = []
    · refine ⟨[3], ?_, Or.inr ⟨3, [], rfl, Or.inl rfl, List.sorted_nil, by simp⟩⟩
      have : usb1V N tbin f0 = A1 ++ [tbin + 3] := by
        unfold usb1V
        rw [← hloopL, hle, List.append_nil, hI]
      rw [this, gaps_append A1 [tbin + 3] hA1ne (by simp), gaps_arange1 h]
      rw [hlast1]
      simp [gaps_single]
    · have hhead : loopL.head? = some (tbin + 3 + 8 + 8 - 8) := by
        rw [hloopL]
        have := usbLoop_head (N := (N:ℤ))
          (m := (usbInit N tbin f0).getLast?.getD 0 + 8) (le_refl (8:ℤ)) (by rw [← hloopL]; exact hle)
        rw [← hloopL] at this
        rw [this, hlastD]
        norm_num
      refine ⟨3 :: 8 :: gaps loopL, ?_, Or.inr ⟨3, 8 :: gaps loopL, rfl, Or.inl rfl, ?_, ?_⟩⟩
      · have hshape : usb1V N tbin f0 = A1 ++ ([tbin + 3] ++ loopL) := by
          unfold usb1V
          rw [← hloopL, hI, List.append_assoc]
        rw [hshape, gaps_append A1 ([tbin + 3] ++ loopL) hA1ne (by simp),
          gaps_append [tbin + 3] loopL (by simp) hle, gaps_arange1 h, hlast1]
        have hh : ([tbin + 3] ++ loopL).head?.getD 0 = tbin + 3 := by
          rw [List.head?_append_of_ne_nil _ (by simp)]
          rfl
        rw [hh, hhead]
        simp [gaps_single]
      · rw [List.sorted_cons]
        exact ⟨fun b hb => (hloop8 b hb).1, hloopfacts.2⟩
      · intro x hx
        rcases List.mem_cons.1 hx with rfl | hx'
        · norm_num
        · exact hloop8 x hx'
  · -- usbInit = A1
    have hI : usbInit N tbin f0 = A1 := by
      unfold usbInit
      rw [arange2_explicit, if_neg h3, List.append_nil]
    rw [if_neg h3] at hIlast
    have hlastD : (usbInit N tbin f0).getLast?.getD 0 = tbin := by
      rw [hIlast]; rfl
    by_cases hle : loopL = []
    · refine ⟨[], ?_, Or.inl rfl⟩
      have : usb1V N tbin f0 = A1 := by
        unfold usb1V
        rw [← hloopL, hle, List.append_nil, hI]
      rw [this, gaps_arange1 h, List.append_nil]
    · have hhead : loopL.head? = some (tbin + 8) := by
        rw [hloopL]
        have := usbLoop_head (N := (N:ℤ))
          (m := (usbInit N tbin f0).getLast?.getD 0 + 8) (le_refl (8:ℤ)) (by rw [← hloopL]; exact hle)
        rw [← hloopL] at this
        rw [this, hlastD]
      refine ⟨8 :: gaps loopL, ?_, Or.inr ⟨8, gaps loopL, rfl, Or.inr rfl, hloopfacts.2, hloop8⟩⟩
      have hshape : usb1V N tbin f0 = A1 ++ loopL := by
        unfold usb1V
        rw [← hloopL, hI]
      rw [hshape, gaps_append A1 loopL hA1ne hle, gaps_arange1 h, hlast1, hhead]
      simp


/-! ## More `gaps` algebra and ordering lemmas -/

theorem gaps_map_add (c : ℤ) :
    ∀ l : List ℤ, gaps (l.map (· + c)) = gaps l := by
  intro l
  induction l with
  | nil => rfl
  | cons a t ih =>
      cases t with
      | nil => rfl
      | cons b t' =>
          have hm : (a :: b :: t').map (· + c) = (a + c) :: (b + c) :: t'.map (· + c) := rfl
          have hm2 : (b :: t').map (· + c) = (b + c) :: t'.map (· + c) := rfl
          rw [hm, gaps_cons2, ← hm2, ih, gaps_cons2]
          congr 1
          ring

theorem gaps_map_sub_one (l : List ℤ) : gaps (l.map (· - 1)) = gaps l := by
  have h : (fun x : ℤ => x - 1) = (· + (-1)) := by
    funext x
    ring
  rw [h, gaps_map_add]

theorem gaps_reverse : ∀ l : List ℤ, gaps l.reverse = (downGaps l).reverse := by
  intro l
  induction l with
  | nil => rfl
  | cons a t ih =>
      cases t with
      | nil => rfl
      | cons b t' =>
          have hrevne : (b :: t').reverse ≠ [] := by simp
          have hrev : (a :: b :: t').reverse = (b :: t').reverse ++ [a] := by simp
          rw [hrev, gaps_append _ [a] hrevne (by simp), ih, downGaps_cons2]
          simp [List.getLast?_reverse, gaps_single]

theorem sorted_lt_of_gaps_pos : ∀ l : List ℤ, (∀ g ∈ gaps l, 0 < g) → l.Sorted (· < ·) := by
  intro l
  induction l with
  | nil => intro _; exact List.sorted_nil
  | cons a t ih =>
      cases t with
      | nil => intro _; exact List.sorted_singleton a
      | cons b t' =>
          intro hg
          rw [gaps_cons2] at hg
          have hab : a < b := by
            have := hg (b - a) (by simp)
            omega
          have hrest : (b :: t').Sorted (· < ·) := ih (fun g hgm => hg g (by simp [hgm]))
          rw [List.sorted_cons]
          refine ⟨fun x hx => ?_, hrest⟩
          rcases List.mem_cons.1 hx with rfl | hx'
          · exact hab
          · have := (List.sorted_cons.1 hrest).1 x hx'
            omega

theorem zipWith_width_gaps : ∀ l : List ℤ,
    List.zipWith (fun s t => t - s + 1) (l.dropLast.map (· + 1)) l.tail = gaps l := by
  intro l
  induction l with
  | nil => rfl
  | cons a t ih =>
      cases t with
      | nil => rfl
      | cons b t' =>
          have hdl : (a :: b :: t').dropLast = a :: (b :: t').dropLast := rfl
          rw [hdl, gaps_cons2, ← ih]
          have hmap : (a :: (b :: t').dropLast).map (· + 1) =
              (a + 1) :: (b :: t').dropLast.map (· + 1) := rfl
          rw [hmap]
          have htl : (a :: b :: t').tail = b :: t' := rfl
          rw [htl]
          have htl2 : (b :: t').tail = t' := rfl
          rw [htl2]
          cases t' with
          | nil => simp; ring
          | cons c t'' =>
              have : (b :: c :: t'').dropLast.map (· + 1) =
                  (b + 1) :: (c :: t'').dropLast.map (· + 1) := rfl
              rw [this]
              simp only [List.zipWith_cons_cons]
              congr 1
              ring

/-! ## The three outcomes of `bplogsmoothCore` -/

theorem lsbInit_isEmpty_iff {N : ℕ} {tbin : ℤ} {f0 : ℚ} :
    (lsbInit N tbin f0).isEmpty = true ↔ bindV N tbin f0 = 0 := by
  rw [lsbInit_explicit]
  by_cases h0 : bindV N tbin f0 = 0
  · simp [h0]
  · rw [if_neg h0]
    by_cases h4 : bindV N tbin f0 ≤ 4 <;> simp [h4, h0]

theorem core_eq_cases (N : ℕ) (tbin : ℤ) (f0 : ℚ) :
    (tbin ≤ bin0V N f0 ∧
        bplogsmoothCore N tbin f0 = .error .PreconditionViolation) ∨
      (bin0V N f0 < tbin ∧ bindV N tbin f0 = 0 ∧
        bplogsmoothCore N tbin f0 = .error .IndexError) ∨
      (bin0V N f0 < tbin ∧ bindV N tbin f0 ≠ 0 ∧
        bplogsmoothCore N tbin f0 =
          .ok (startbinV N tbin f0, stopbinV N tbin f0)) := by
  by_cases hpre : tbin ≤ bin0V N f0
  · exact Or.inl ⟨hpre, by unfold bplogsmoothCore; rw [if_pos hpre]⟩
  · have hpre' : bin0V N f0 < tbin := by omega
    obtain ⟨hne, _⟩ := usbInit_getLast hpre'
    have hus : (usbInit N tbin f0).isEmpty = false := by
      cases hu : usbInit N tbin f0 with
      | nil => exact absurd hu hne
      | cons a t => rfl
    by_cases hbd : bindV N tbin f0 = 0
    · refine Or.inr (Or.inl ⟨hpre', hbd, ?_⟩)
      unfold bplogsmoothCore
      rw [if_neg hpre, if_pos]
      rw [hus, lsbInit_isEmpty_iff.2 hbd]
      simp
    · refine Or.inr (Or.inr ⟨hpre', hbd, ?_⟩)
      unfold bplogsmoothCore
      rw [if_neg hpre, if_neg]
      rw [hus]
      simp only [Bool.false_eq_true, false_or]
      intro hc
      exact hbd (lsbInit_isEmpty_iff.1 hc)

theorem core_ok_elim {N : ℕ} {tbin : ℤ} {f0 : ℚ} {sb tb : List ℤ}
    (h : bplogsmoothCore N tbin f0 = .ok (sb, tb)) :
    sb = startbinV N tbin f0 ∧ tb = stopbinV N tbin f0 ∧
      bin0V N f0 < tbin ∧ bindV N tbin f0 ≠ 0 := by
  rcases core_eq_cases N tbin f0 with ⟨_, hc⟩ | ⟨_, _, hc⟩ | ⟨h1, h2, hc⟩
  · rw [hc] at h; exact absurd h (by simp)
  · rw [hc] at h; exact absurd h (by simp)
  · rw [hc] at h
    simp at h
    exact ⟨h.1.symm, h.2.symm, h1, h2⟩


/-! ## Assembled structure of `startbinV` and `stopbinV` -/

theorem maps_cancel (l : List ℤ) : (l.map (· - 1)).map (· + 1) = l := by
  rw [List.map_map]
  have h : ((· + 1) ∘ (· - 1) : ℤ → ℤ) = id := by
    funext x
    simp
  rw [h, List.map_id]

theorem stopbinV_len {N : ℕ} {tbin : ℤ} {f0 : ℚ} (hpre : bin0V N f0 < tbin)
    (hbd : bindV N tbin f0 ≠ 0) :
    (stopbinV N tbin f0).length =
        (lsb2V N tbin f0).length + (usb1V N tbin f0).length ∧
      (startbinV N tbin f0).length =
        (lsb2V N tbin f0).length + (usb1V N tbin f0).length := by
  have hU1 : usb1V N tbin f0 ≠ [] := usb1V_ne_nil hpre
  have hA : lsb2V N tbin f0 ≠ [] := (lsb2V_head hbd).2
  have h1 : (usb2V N tbin f0).length = (usb1V N tbin f0).length := by
    unfold usb2V
    rw [List.length_append, List.length_map, List.length_tail]
    have := List.length_pos.2 hU1
    simp
    omega
  have h2 : (lsb1V N tbin f0).length = (lsb2V N tbin f0).length := by
    unfold lsb1V
    rw [List.length_append, List.length_map, List.length_tail]
    have := List.length_pos.2 hA
    simp
    omega
  constructor
  · unfold stopbinV
    rw [List.length_map, List.length_append, List.length_reverse, h1]
  · unfold startbinV
    rw [List.length_map, List.length_append, List.length_reverse, h2]

theorem getLast?_cons_ne_nil {a : ℤ} {l : List ℤ} (h : l ≠ []) :
    (a :: l).getLast? = l.getLast? := by
  cases l with
  | nil => exact absurd rfl h
  | cons b t => exact List.getLast?_cons_cons

theorem sb_eq {N : ℕ} {tbin : ℤ} {f0 : ℚ} (hpre : bin0V N f0 < tbin)
    (hbd : bindV N tbin f0 ≠ 0) :
    startbinV N tbin f0 = 0 :: ((stopbinV N tbin f0).dropLast.map (· + 1)) := by
  obtain ⟨hAhead, hAne⟩ := lsb2V_head hbd
  have hUdec := List.eq_cons_of_mem_head? (usb1V_head hpre)
  have hAdec := List.eq_cons_of_mem_head? hAhead
  have husb2 : usb2V N tbin f0 =
      (usb1V N tbin f0).tail.map (· - 1) ++ [(N : ℤ) / 2] := rfl
  have husb2ne : usb2V N tbin f0 ≠ [] := by rw [husb2]; simp
  have hstop : (stopbinV N tbin f0).dropLast =
      ((lsb2V N tbin f0).reverse ++ (usb1V N tbin f0).tail.map (· - 1)).map (· - 1) := by
    unfold stopbinV
    rw [← List.map_dropLast, List.dropLast_append_of_ne_nil _ husb2ne, husb2,
      List.dropLast_concat]
  rw [hstop, maps_cancel]
  unfold startbinV lsb1V
  rw [List.reverse_append, List.reverse_singleton, List.singleton_append, List.cons_append,
    List.map_cons, List.map_append, List.map_reverse, List.map_map]
  have hcomp : ((fun x : ℤ => x - 1) ∘ fun x : ℤ => x + 1) = id := by
    funext x
    simp
  rw [hcomp, List.map_id]
  have hUm : (usb1V N tbin f0).map (· - 1) =
      (bin1V N tbin f0 - 1) :: (usb1V N tbin f0).tail.map (· - 1) := by
    conv_lhs => rw [hUdec]
    rfl
  rw [hUm]
  conv_rhs => rw [hAdec]
  rw [List.reverse_cons, List.append_assoc]
  simp

theorem tb_head {N : ℕ} {tbin : ℤ} {f0 : ℚ} (hpre : bin0V N f0 < tbin)
    (hbd : bindV N tbin f0 ≠ 0) :
    ∃ AL, (lsb2V N tbin f0).getLast? = some AL ∧
      (stopbinV N tbin f0).head? = some (AL - 1) := by
  have hAne : lsb2V N tbin f0 ≠ [] := (lsb2V_head hbd).2
  have hrevne : (lsb2V N tbin f0).reverse ≠ [] := by
    intro hc
    exact hAne (by simpa using congrArg List.reverse hc)
  cases hAL : (lsb2V N tbin f0).getLast? with
  | none => exact absurd (List.getLast?_eq_none_iff.1 hAL) hAne
  | some AL =>
      refine ⟨AL, rfl, ?_⟩
      unfold stopbinV
      rw [List.head?_map, List.head?_append_of_ne_nil _ hrevne, List.head?_reverse, hAL]
      rfl

theorem tb_gaps_eq {N : ℕ} {tbin : ℤ} {f0 : ℚ} (hpre : bin0V N f0 < tbin)
    (hbd : bindV N tbin f0 ≠ 0) :
    ∃ uL, (usb1V N tbin f0).getLast? = some uL ∧
      gaps (stopbinV N tbin f0) =
        (downGaps (lsb2V N tbin f0)).reverse ++
          (gaps (usb1V N tbin f0) ++ [(N : ℤ) / 2 + 1 - uL]) := by
  obtain ⟨hAhead, hAne⟩ := lsb2V_head hbd
  have hUdec := List.eq_cons_of_mem_head? (usb1V_head hpre)
  have hrevne : (lsb2V N tbin f0).reverse ≠ [] := by
    intro hc
    exact hAne (by simpa using congrArg List.reverse hc)
  have husb2 : usb2V N tbin f0 =
      (usb1V N tbin f0).tail.map (· - 1) ++ [(N : ℤ) / 2] := rfl
  have husb2ne : usb2V N tbin f0 ≠ [] := by rw [husb2]; simp
  have hgapsQ : gaps (stopbinV N tbin f0) =
      gaps ((lsb2V N tbin f0).reverse ++ usb2V N tbin f0) := by
    unfold stopbinV
    rw [gaps_map_sub_one]
  have hlastrev : (lsb2V N tbin f0).reverse.getLast?.getD 0 = bin1V N tbin f0 - 1 := by
    rw [List.getLast?_reverse, hAhead]
    rfl
  rw [hgapsQ, gaps_append _ _ hrevne husb2ne, gaps_reverse, hlastrev]
  cases hU'c : (usb1V N tbin f0).tail with
  | nil =>
      have huV : usb1V N tbin f0 = [bin1V N tbin f0] := by
        rw [hUdec, hU'c]
      have huL : (usb1V N tbin f0).getLast? = some (bin1V N tbin f0) := by
        rw [huV]
        rfl
      refine ⟨bin1V N tbin f0, huL, ?_⟩
      have h2 : usb2V N tbin f0 = [(N : ℤ) / 2] := by
        rw [husb2, hU'c]
        rfl
      have h3 : gaps (usb1V N tbin f0) = [] := by
        rw [huV]
        rfl
      rw [h2, h3]
      simp [gaps_single]
      ring
  | cons u U'' =>
      have hU'ne : (usb1V N tbin f0).tail ≠ [] := by rw [hU'c]; simp
      have hU'mne : (usb1V N tbin f0).tail.map (· - 1) ≠ [] := by rw [hU'c]; simp
      cases huLc : (usb1V N tbin f0).tail.getLast? with
      | none => exact absurd (List.getLast?_eq_none_iff.1 huLc) hU'ne
      | some uL =>
          have huL : (usb1V N tbin f0).getLast? = some uL := by
            rw [hUdec, getLast?_cons_ne_nil hU'ne]
            exact huLc
          refine ⟨uL, huL, ?_⟩
          have hhead2 : (usb2V N tbin f0).head?.getD 0 = u - 1 := by
            rw [husb2, List.head?_append_of_ne_nil _ hU'mne, hU'c]
            rfl
          have hgaps2 : gaps (usb2V N tbin f0) =
              gaps (usb1V N tbin f0).tail ++ [(N : ℤ) / 2 + 1 - uL] := by
            rw [husb2, gaps_append _ _ hU'mne (by simp), gaps_map_sub_one]
            have hgl : ((usb1V N tbin f0).tail.map (· - 1)).getLast?.getD 0 = uL - 1 := by
              rw [List.getLast?_map, huLc]
              rfl
            rw [hgl]
            simp [gaps_single]
            ring
          have hgapsU1 : gaps (usb1V N tbin f0) =
              (u - bin1V N tbin f0) :: gaps (usb1V N tbin f0).tail := by
            conv_lhs => rw [hUdec, hU'c]
            rw [gaps_cons2, ← hU'c]
          rw [hhead2, hgaps2, hgapsU1]
          simp

theorem widths_structure {N : ℕ} {tbin : ℤ} {f0 : ℚ} (hpre : bin0V N f0 < tbin)
    (hbd : bindV N tbin f0 ≠ 0) :
    widths (startbinV N tbin f0) (stopbinV N tbin f0) =
      ((stopbinV N tbin f0).getD 0 0 + 1) :: gaps (stopbinV N tbin f0) := by
  obtain ⟨AL, hAL, hhead⟩ := tb_head hpre hbd
  have htbdec := List.eq_cons_of_mem_head? hhead
  unfold widths
  rw [sb_eq hpre hbd]
  rw [htbdec]
  have hz := zipWith_width_gaps ((AL - 1) :: (stopbinV N tbin f0).tail)
  simp only [List.tail_cons] at hz
  rw [List.zipWith_cons_cons, hz]
  simp only [List.getD_cons_zero]
  congr 1
  ring


/-! ## Derived facts feeding the claims -/

theorem startbinV_head (N : ℕ) (tbin : ℤ) (f0 : ℚ) :
    (startbinV N tbin f0).head? = some 0 := by
  unfold startbinV lsb1V
  have hne : ((lsb2V N tbin f0).tail.map (· + 1) ++ [1]).reverse ≠ [] := by
    simp
  rw [List.head?_map, List.head?_append_of_ne_nil _ hne, List.head?_reverse,
    List.getLast?_concat]
  rfl

theorem stopbinV_last (N : ℕ) (tbin : ℤ) (f0 : ℚ) :
    (stopbinV N tbin f0).getLast? = some ((N : ℤ) / 2 - 1) := by
  unfold stopbinV usb2V
  rw [List.getLast?_map, List.getLast?_append_of_ne_nil _ (by simp)]
  rw [List.getLast?_concat]
  rfl

theorem getD_last_of_getLast? {l : List ℤ} {v : ℤ} (h : l.getLast? = some v) :
    l.getD (l.length - 1) 0 = v := by
  rw [List.getLast?_eq_getElem?] at h
  rw [List.getD_eq_getElem?_getD, h]
  rfl

theorem getD_head_of_head? {l : List ℤ} {v : ℤ} (h : l.head? = some v) :
    l.getD 0 0 = v := by
  rw [List.head?_eq_getElem?] at h
  rw [List.getD_eq_getElem?_getD, h]
  rfl

theorem getD_mem {l : List ℤ} {i : ℕ} (h : i < l.length) : l.getD i 0 ∈ l := by
  rw [List.getD_eq_getElem _ _ h]
  exact List.getElem_mem h

theorem sorted_getD_lt {l : List ℤ} (hs : l.Sorted (· < ·)) {i j : ℕ}
    (hj : j < l.length) (hij : i < j) : l.getD i 0 < l.getD j 0 := by
  have hi : i < l.length := lt_trans hij hj
  rw [List.getD_eq_getElem _ _ hi, List.getD_eq_getElem _ _ hj]
  exact List.pairwise_iff_getElem.1 hs i j hi hj hij

theorem usb1V_gaps_bounds {N : ℕ} {tbin : ℤ} {f0 : ℚ} (hpre : bin0V N f0 < tbin) :
    ∀ g ∈ gaps (usb1V N tbin f0), 3 ≤ g ∧ g ≤ 1024 := by
  obtain ⟨t, hgeq, hcase⟩ := usb1V_gaps hpre
  intro g hg
  rw [hgeq] at hg
  rcases List.mem_append.1 hg with hg | hg
  · have := List.eq_of_mem_replicate hg
    omega
  · rcases hcase with rfl | ⟨g0, r, rfl, hg0, _, hr⟩
    · simp at hg
    · rcases List.mem_cons.1 hg with rfl | hg'
      · rcases hg0 with rfl | rfl <;> norm_num
      · have := hr g hg'
        omega

theorem tb_gaps_bounds {N : ℕ} {tbin : ℤ} {f0 : ℚ} (hnd : NonDegenerate N tbin f0) :
    ∀ g ∈ gaps (stopbinV N tbin f0), 1 ≤ g ∧ g ≤ 1537 := by
  obtain ⟨hpre, hbd8, h8, hN2⟩ := id hnd
  have hbd : bindV N tbin f0 ≠ 0 := by
    unfold bindV bin1V
    omega
  obtain ⟨uL, huL, hgeq⟩ := tb_gaps_eq hpre hbd
  obtain ⟨uL', huL', hbound, hle⟩ := usb1V_last hpre
  rw [huL] at huL'
  have huLeq : uL = uL' := by
    injection huL'.symm with h
    omega
  subst huLeq
  have hd := lsb2V_downGaps hbd
  have hu := usb1V_gaps_bounds hpre
  intro g hg
  rw [hgeq] at hg
  rcases List.mem_append.1 hg with hg | hg
  · have := hd.2 g (List.mem_reverse.1 hg)
    omega
  · rcases List.mem_append.1 hg with hg | hg
    · have := hu g hg
      omega
    · simp at hg
      subst hg
      have h1 := hle hN2
      omega

theorem tb_first_bounds {N : ℕ} {tbin : ℤ} {f0 : ℚ} (hnd : NonDegenerate N tbin f0) :
    ∃ AL, (stopbinV N tbin f0).getD 0 0 = AL - 1 ∧ 1 ≤ AL ∧ AL ≤ 1537 := by
  obtain ⟨hpre, hbd8, h8, hN2⟩ := id hnd
  have hbd : bindV N tbin f0 ≠ 0 := by
    unfold bindV bin1V
    omega
  obtain ⟨AL, hAL, hhead⟩ := tb_head hpre hbd
  obtain ⟨AL', hAL', hub⟩ := lsb2V_last hbd
  rw [hAL] at hAL'
  have : AL = AL' := by
    injection hAL'.symm with h
    omega
  subst this
  refine ⟨AL, getD_head_of_head? hhead, ?_, hub⟩
  exact (lsb2V_mem hbd h8 AL (List.mem_of_mem_getLast? hAL)).1

theorem widths_pos {N : ℕ} {tbin : ℤ} {f0 : ℚ} (hnd : NonDegenerate N tbin f0) :
    ∀ i : ℕ, i < (widths (startbinV N tbin f0) (stopbinV N tbin f0)).length →
      1 ≤ (widths (startbinV N tbin f0) (stopbinV N tbin f0)).getD i 0 ∧
      (widths (startbinV N tbin f0) (stopbinV N tbin f0)).getD i 0 ≤ 1537 := by
  obtain ⟨hpre0, hbd8, h8, hN2⟩ := id hnd
  have hbd : bindV N tbin f0 ≠ 0 := by
    unfold bindV bin1V
    omega
  have hw := widths_structure hpre0 hbd
  obtain ⟨AL, hALeq, hAL1, hAL2⟩ := tb_first_bounds hnd
  have hgb := tb_gaps_bounds hnd
  intro i hi
  rw [hw] at hi ⊢
  cases i with
  | zero =>
      rw [List.getD_cons_zero, hALeq]
      omega
  | succ k =>
      rw [List.getD_cons_succ]
      simp only [List.length_cons] at hi
      have hk : k < (gaps (stopbinV N tbin f0)).length := by omega
      exact hgb _ (getD_mem hk)

theorem tb_sorted {N : ℕ} {tbin : ℤ} {f0 : ℚ} (hnd : NonDegenerate N tbin f0) :
    (stopbinV N tbin f0).Sorted (· < ·) := by
  apply sorted_lt_of_gaps_pos
  intro g hg
  have := tb_gaps_bounds hnd g hg
  omega

theorem getD_succ_of_cons_dropLast {sb tb : List ℤ}
    (h : sb = 0 :: (tb.dropLast.map (· + 1))) (i : ℕ) (hi : i + 1 < sb.length) :
    sb.getD (i + 1) 0 = tb.getD i 0 + 1 := by
  subst h
  rw [List.getD_cons_succ]
  have hlen : i < tb.dropLast.length := by
    simp only [List.length_cons, List.length_map] at hi
    omega
  have hlen2 : i < tb.length := by
    rw [List.length_dropLast] at hlen
    omega
  rw [List.getD_eq_getElem _ _ (by rw [List.length_map]; exact hlen),
    List.getElem_map, List.getElem_dropLast, List.getD_eq_getElem _ _ hlen2]

theorem contiguity_getD {N : ℕ} {tbin : ℤ} {f0 : ℚ} (hpre : bin0V N f0 < tbin)
    (hbd : bindV N tbin f0 ≠ 0) :
    ∀ i : ℕ, i + 1 < (startbinV N tbin f0).length →
      (startbinV N tbin f0).getD (i + 1) 0 = (stopbinV N tbin f0).getD i 0 + 1 :=
  fun i hi => getD_succ_of_cons_dropLast (sb_eq hpre hbd) i hi

theorem sb_getD_succ {N : ℕ} {tbin : ℤ} {f0 : ℚ} (hnd : NonDegenerate N tbin f0) :
    ∀ i : ℕ, i < (startbinV N tbin f0).length →
      0 ≤ (startbinV N tbin f0).getD i 0 ∧
      (startbinV N tbin f0).getD i 0 ≤ (stopbinV N tbin f0).getD i 0 ∧
      (stopbinV N tbin f0).getD i 0 ≤ (N : ℤ) / 2 - 1 := by
  obtain ⟨hpre0, hbd8, h8, hN2⟩ := id hnd
  have hbd : bindV N tbin f0 ≠ 0 := by
    unfold bindV bin1V
    omega
  obtain ⟨hlen1, hlen2⟩ := stopbinV_len hpre0 hbd
  have hlen12 : (startbinV N tbin f0).length = (stopbinV N tbin f0).length := by
    omega
  have hwp := widths_pos hnd
  have hsorted := tb_sorted hnd
  have hwlen : (widths (startbinV N tbin f0) (stopbinV N tbin f0)).length =
      (startbinV N tbin f0).length := by
    unfold widths
    rw [List.length_zipWith]
    omega
  have hwidth : ∀ i : ℕ, i < (startbinV N tbin f0).length →
      (startbinV N tbin f0).getD i 0 ≤ (stopbinV N tbin f0).getD i 0 := by
    intro i hilen
    have hiw : i < (widths (startbinV N tbin f0) (stopbinV N tbin f0)).length := by
      omega
    have h1 := (hwp i hiw).1
    have hval : (widths (startbinV N tbin f0) (stopbinV N tbin f0)).getD i 0 =
        (stopbinV N tbin f0).getD i 0 - (startbinV N tbin f0).getD i 0 + 1 := by
      unfold widths at hiw ⊢
      rw [List.getD_eq_getElem _ _ hiw, List.getElem_zipWith,
        List.getD_eq_getElem _ _ hilen, List.getD_eq_getElem _ _ (by omega)]
    rw [hval] at h1
    omega
  have hlast : (stopbinV N tbin f0).getD ((stopbinV N tbin f0).length - 1) 0 =
      (N : ℤ) / 2 - 1 := getD_last_of_getLast? (stopbinV_last N tbin f0)
  have hlp : 0 < (lsb2V N tbin f0).length := List.length_pos.2 (lsb2V_head hbd).2
  have hup : 0 < (usb1V N tbin f0).length := List.length_pos.2 (usb1V_ne_nil hpre0)
  have htbne : (stopbinV N tbin f0).length ≠ 0 := by
    omega
  intro i hilen
  have htb_le : (stopbinV N tbin f0).getD i 0 ≤ (N : ℤ) / 2 - 1 := by
    rcases Nat.lt_or_ge i ((stopbinV N tbin f0).length - 1) with hlt | hge
    · have := sorted_getD_lt hsorted (by omega) hlt
      omega
    · have : i = (stopbinV N tbin f0).length - 1 := by omega
      rw [this, hlast]
  have hsb_nonneg : 0 ≤ (startbinV N tbin f0).getD i 0 := by
    cases i with
    | zero =>
        rw [getD_head_of_head? (startbinV_head N tbin f0)]
    | succ k =>
        rw [contiguity_getD hpre0 hbd k (by omega)]
        obtain ⟨AL, hALeq, hAL1, _⟩ := tb_first_bounds hnd
        have h0 : (stopbinV N tbin f0).getD 0 0 = AL - 1 := hALeq
        rcases Nat.eq_zero_or_pos k with rfl | hkpos
        · omega
        · have := sorted_getD_lt hsorted (i := 0) (j := k) (by omega) hkpos
          omega
  exact ⟨hsb_nonneg, hwidth i hilen, htb_le⟩

/-! ## Helper lemmas for the claim theorems -/

theorem bindV_of_nd {N : ℕ} {tbin : ℤ} {f0 : ℚ} (hnd : NonDegenerate N tbin f0) :
    bindV N tbin f0 ≠ 0 := by
  obtain ⟨_, hmod, _, _⟩ := id hnd
  unfold bindV bin1V
  omega

theorem N_ge_of_nd {N : ℕ} {tbin : ℤ} {f0 : ℚ} (hnd : NonDegenerate N tbin f0) :
    24 ≤ (N : ℤ) := by
  obtain ⟨hpre, _, h8, hN2⟩ := id hnd
  omega

theorem core_pv_iff (N : ℕ) (tbin : ℤ) (f0 : ℚ) :
    bplogsmoothCore N tbin f0 = .error .PreconditionViolation ↔ tbin ≤ bin0V N f0 := by
  rcases core_eq_cases N tbin f0 with ⟨h1, hc⟩ | ⟨h1, _, hc⟩ | ⟨h1, _, hc⟩ <;> rw [hc]
  · exact ⟨fun _ => h1, fun _ => rfl⟩
  · exact ⟨fun hcontra => absurd hcontra (by simp), fun hx => ((not_le.mpr h1) hx).elim⟩
  · exact ⟨fun hcontra => absurd hcontra (by simp), fun hx => ((not_le.mpr h1) hx).elim⟩

theorem core_ie_iff (N : ℕ) (tbin : ℤ) (f0 : ℚ) :
    bplogsmoothCore N tbin f0 = .error .IndexError ↔
      bin0V N f0 < tbin ∧ (tbin - bin0V N f0) % 8 = 0 := by
  have hb : bindV N tbin f0 = (tbin - bin0V N f0) % 8 := by
    unfold bindV bin1V
    ring
  rcases core_eq_cases N tbin f0 with ⟨h1, hc⟩ | ⟨h1, h2, hc⟩ | ⟨h1, h2, hc⟩ <;> rw [hc]
  · exact ⟨fun hcontra => absurd hcontra (by simp),
      fun hx => ((not_le.mpr hx.1) h1).elim⟩
  · exact ⟨fun _ => ⟨h1, by omega⟩, fun _ => rfl⟩
  · exact ⟨fun hcontra => absurd hcontra (by simp), fun hx => (h2 (by omega)).elim⟩

/-- The bundle of pointwise facts about a successful bin computation used by
several claims: equal lengths, first start 0, last stop `N/2 - 1`, interval
bounds, contiguity, and sortedness of the stop edges. -/
theorem ok_bounds {N : ℕ} {tbin : ℤ} {f0 : ℚ} {sb tb : List ℤ}
    (hnd : NonDegenerate N tbin f0)
    (h : bplogsmoothCore N tbin f0 = .ok (sb, tb)) :
    sb.length = tb.length ∧ 0 < sb.length ∧
    sb.getD 0 0 = 0 ∧ tb.getD (sb.length - 1) 0 = (N : ℤ) / 2 - 1 ∧
    (∀ i : ℕ, i < sb.length → 0 ≤ sb.getD i 0 ∧ sb.getD i 0 ≤ tb.getD i 0 ∧
      tb.getD i 0 ≤ (N : ℤ) / 2 - 1) ∧
    (∀ i : ℕ, i + 1 < sb.length → sb.getD (i + 1) 0 = tb.getD i 0 + 1) ∧
    tb.Sorted (· < ·) := by
  obtain ⟨hsb, htb, hpre, hbd⟩ := core_ok_elim h
  subst hsb htb
  obtain ⟨hl1, hl2⟩ := stopbinV_len hpre hbd
  have hlp : 0 < (lsb2V N tbin f0).length := List.length_pos.2 (lsb2V_head hbd).2
  have hup : 0 < (usb1V N tbin f0).length := List.length_pos.2 (usb1V_ne_nil hpre)
  have h12 : (startbinV N tbin f0).length = (stopbinV N tbin f0).length := by omega
  refine ⟨h12, by omega, getD_head_of_head? (startbinV_head N tbin f0), ?_,
    sb_getD_succ hnd, contiguity_getD hpre hbd, tb_sorted hnd⟩
  rw [h12]
  exact getD_last_of_getLast? (stopbinV_last N tbin f0)

theorem getD_lt_of_adjacent {v : List ℤ} {n : ℕ}
    (hadj : ∀ i : ℕ, i + 1 < n → v.getD i 0 < v.getD (i + 1) 0) :
    ∀ j : ℕ, j < n → ∀ i : ℕ, i < j → v.getD i 0 < v.getD j 0 := by
  intro j
  induction j with
  | zero => exact fun _ i hi => absurd hi (Nat.not_lt_zero i)
  | succ k ih =>
      intro hk i hi
      rcases Nat.lt_or_ge i k with h | h
      · exact lt_trans (ih (by omega) i h) (hadj k hk)
      · have hik : i = k := by omega
        subst hik
        exact hadj i hk

/-- Closed intervals that start at 0, end at `N2 - 1`, are nonempty and
contiguous, partition `0 .. N2 - 1`. -/
theorem partition_of {sb tb : List ℤ} {N2 : ℤ}
    (hlen : sb.length = tb.length) (hpos : 0 < sb.length)
    (hfirst : sb.getD 0 0 = 0)
    (hlast : tb.getD (sb.length - 1) 0 = N2 - 1)
    (hwidth : ∀ i : ℕ, i < sb.length → sb.getD i 0 ≤ tb.getD i 0)
    (hcontig : ∀ i : ℕ, i + 1 < sb.length → sb.getD (i + 1) 0 = tb.getD i 0 + 1) :
    IsBinPartition sb tb N2 := by
  have hsbadj : ∀ i : ℕ, i + 1 < sb.length → sb.getD i 0 < sb.getD (i + 1) 0 := by
    intro i hi
    have h1 := hwidth i (by omega)
    have h2 := hcontig i hi
    omega
  have htbadj : ∀ i : ℕ, i + 1 < sb.length → tb.getD i 0 < tb.getD (i + 1) 0 := by
    intro i hi
    have h1 := hwidth (i + 1) hi
    have h2 := hcontig i hi
    omega
  have hsbmono := getD_lt_of_adjacent hsbadj
  have htbmono := getD_lt_of_adjacent htbadj
  unfold IsBinPartition
  intro j
  constructor
  · rintro ⟨hj0, hjN⟩
    have hPex : ∃ i : ℕ, sb.length - 1 ≤ i ∨ j ≤ tb.getD i 0 :=
      ⟨sb.length - 1, Or.inl le_rfl⟩
    have hspec := Nat.find_spec hPex
    have hle : Nat.find hPex ≤ sb.length - 1 := Nat.find_le (Or.inl le_rfl)
    have hi0lt : Nat.find hPex < sb.length := by omega
    have hcover : j ≤ tb.getD (Nat.find hPex) 0 := by
      rcases hspec with hA | hB
      · have he : Nat.find hPex = sb.length - 1 := by omega
        rw [he, hlast]
        omega
      · exact hB
    have hlow : sb.getD (Nat.find hPex) 0 ≤ j := by
      rcases Nat.eq_zero_or_pos (Nat.find hPex) with h0 | hp
      · rw [h0, hfirst]
        exact hj0
      · have hmin := Nat.find_min hPex (m := Nat.find hPex - 1) (by omega)
        push_neg at hmin
        obtain ⟨hm1, hm2⟩ := hmin
        have hc := hcontig (Nat.find hPex - 1) (by omega)
        have he : Nat.find hPex - 1 + 1 = Nat.find hPex := by omega
        rw [he] at hc
        omega
    refine ⟨Nat.find hPex, ⟨hi0lt, hlow, hcover⟩, ?_⟩
    intro y hy
    obtain ⟨hylt, hys, hyt⟩ := hy
    rcases Nat.lt_trichotomy y (Nat.find hPex) with hlt | heq | hgt
    · have hmin := Nat.find_min hPex hlt
      push_neg at hmin
      omega
    · exact heq
    · exfalso
      have h1 : Nat.find hPex + 1 < sb.length := by omega
      have hc := hcontig (Nat.find hPex) h1
      rcases Nat.lt_or_ge (Nat.find hPex + 1) y with hy2 | hy2
      · have := hsbmono y hylt (Nat.find hPex + 1) hy2
        omega
      · have hye : y = Nat.find hPex + 1 := by omega
        subst hye
        omega
  · rintro ⟨i, ⟨hilt, his, hit⟩, -⟩
    constructor
    · rcases Nat.eq_zero_or_pos i with h0 | hp
      · rw [h0, hfirst] at his
        exact his
      · have := hsbmono i hilt 0 hp
        rw [hfirst] at this
        omega
    · rcases Nat.lt_or_ge i (sb.length - 1) with hlt | hge
      · have := htbmono (sb.length - 1) (by omega) i hlt
        rw [hlast] at this
        omega
      · have he : i = sb.length - 1 := by omega
        rw [he, hlast] at hit
        omega

theorem sum_map_normSq_div (c : ℝ) : ∀ l : List ℂ,
    (l.map fun z => Complex.normSq z / c).sum = (l.map Complex.normSq).sum / c := by
  intro l
  induction l with
  | nil => simp
  | cons a u ih => simp [ih, add_div]

theorem abs_sq_div_intCast (z : ℂ) {w : ℤ} (hw : 0 < w) :
    Complex.abs (z ^ 2 / (w : ℂ)) = Complex.normSq z / (w : ℝ) := by
  rw [map_div₀ Complex.abs, map_pow, Complex.sq_abs, Complex.abs_intCast,
    abs_of_pos (by exact_mod_cast hw)]

theorem pySlice_of_bounds {α : Type} (X : List α) {a b : ℤ} (ha : 0 ≤ a)
    (hab : a ≤ b) (hb : b ≤ (X.length : ℤ)) :
    pySlice X a b = (X.drop a.toNat).take (b - a).toNat := by
  unfold pySlice pyBound
  rw [if_neg (by omega), if_neg (by omega)]
  have h1 : min a.toNat X.length = a.toNat := by omega
  have h2 : min b.toNat X.length = b.toNat := by omega
  rw [h1, h2]
  congr 1
  omega

/-- On an in-bounds closed index interval `[s, t]` the source's per-bin power
expression agrees with the spec's: the 1-norm of `X[s:t+1]**2/(t-s+1)` is the
mean squared magnitude of the samples `X[s..t]`. -/
theorem pEntry_eq_spec {X : List ℂ} {s t : ℤ} (hs : 0 ≤ s) (hst : s ≤ t)
    (ht : t < (X.length : ℤ)) : pEntry X s t = dbp (specBinMean X s t) := by
  have hw : (0 : ℤ) < t - s + 1 := by omega
  unfold pEntry specBinMean
  rw [pySlice_of_bounds X hs (by omega) (by omega)]
  have hsub : (t + 1 - s).toNat = (t - s + 1).toNat := by omega
  rw [hsub]
  congr 1
  rw [List.map_congr_left (fun z _ => abs_sq_div_intCast z hw)]
  exact sum_map_normSq_div _ _

/-! ## The claims -/

/-- C1 (corrected): `bplogsmooth` raises `PreconditionViolation` exactly when
`tbin ≤ round(f0*N)`; but the claim's "no other runtime failure" part is
false — when `tbin` lies strictly above `round(f0*N)` and the offset
`tbin - bin0` is divisible by 8, the routine instead raises an `IndexError`
(from `lsb2[-1]` on an empty array); in every remaining case it returns
normally. -/
theorem C1_error_characterization (N : ℕ) (tbin : ℤ) (f0 : ℚ) :
    (bplogsmoothCore N tbin f0 = .error .PreconditionViolation ↔
      tbin ≤ bin0V N f0) ∧
    (bplogsmoothCore N tbin f0 = .error .IndexError ↔
      bin0V N f0 < tbin ∧ (tbin - bin0V N f0) % 8 = 0) :=
  ⟨core_pv_iff N tbin f0, core_ie_iff N tbin f0⟩

/-- C1, counterexample: at `N = 100`, `tbin = 8`, `f0 = 0` the precondition
`tbin > round(f0*N) = 0` holds, yet the call fails with an `IndexError`
rather than terminating successfully. -/
theorem C1_cex :
    bin0V 100 0 < 8 ∧ bplogsmoothCore 100 8 0 = .error .IndexError :=
  ⟨by with_unfolding_all decide, by with_unfolding_all rfl⟩

/-- C2 (corrected): the FFT length `N` used throughout `bplogsmooth` is the
length of the input array `X` itself (`N = X.shape[0]`), not twice that
length: the precondition test compares `tbin` against `round(f0*len(X))`,
and the frequency normalization divides by `len(X)`. -/
theorem C2_N_is_input_length (X : List ℂ) (tbin : ℤ) (f0 : ℚ) :
    (bplogsmoothBins X tbin f0 = .error .PreconditionViolation ↔
      tbin ≤ mround (f0 * (X.length : ℚ))) ∧
    bplogsmooth X tbin f0 = Except.map
      (fun p => (fOut X.length f0 p.1 p.2,
        (p.1.zip p.2).map fun q => pEntry X q.1 q.2))
      (bplogsmoothBins X tbin f0) := by
  refine ⟨core_pv_iff X.length tbin f0, ?_⟩
  unfold bplogsmooth bplogsmoothBins Except.map
  cases bplogsmoothCore X.length tbin f0 with
  | error e => rfl
  | ok p =>
      obtain ⟨sb, tb⟩ := p
      rfl

/-- C2, counterexample: an input of length 10 with `tbin = 4`, `f0 = 1/4`.
Had the routine used `N = 2·len(X) = 20`, then `round(f0*N) = 5 ≥ tbin`
would force a `PreconditionViolation`; instead the call succeeds, and its
last stop index `4 = 10/2 - 1` matches `N = len(X) = 10`. -/
theorem C2_cex :
    (List.replicate 10 (0 : ℂ)).length = 10 ∧
    4 ≤ mround (mkRat 1 4 * ((2 * 10 : ℕ) : ℚ)) ∧
    bplogsmoothBins (List.replicate 10 0) 4 (mkRat 1 4) = .ok ([0, 3], [2, 4]) :=
  ⟨by simp, by with_unfolding_all decide, by with_unfolding_all rfl⟩

/-- C3 (corrected): the claimed 1024-sample cap and the per-sideband
monotonicity hold only away from the boundary and tone-adjacent bins.  The
width list decomposes as the outermost lower-sideband bin `w0` (clamped at
index 0, only bounded by 1537), then the lower-sideband walk widths (sorted
nonincreasing toward the outside, i.e. their tone-outward order `low` is
nondecreasing in `[8, 1024]`), then the width-8 tone-straddling bins, then
an irregular tone-adjacent bin of width 3 or 8 followed by nondecreasing
widths in `[8, 1024]`, and finally the Nyquist-clamped bin `c`, only bounded
by 1537 (and 1537 is attainable: see the counterexample, width 1101). -/
theorem C3_width_structure {N : ℕ} {tbin : ℤ} {f0 : ℚ} {sb tb : List ℤ}
    (hnd : NonDegenerate N tbin f0)
    (h : bplogsmoothCore N tbin f0 = .ok (sb, tb)) :
    ∃ (w0 c : ℤ) (low r : List ℤ),
      widths sb tb =
        w0 :: (low.reverse ++
          ((List.replicate (toneIdx N tbin f0) 8 ++ r) ++ [c])) ∧
      low.Sorted (· ≤ ·) ∧ (∀ g ∈ low, 8 ≤ g ∧ g ≤ 1024) ∧
      (r = [] ∨ ∃ g r', r = g :: r' ∧ (g = 3 ∨ g = 8) ∧ r'.Sorted (· ≤ ·) ∧
        ∀ x ∈ r', 8 ≤ x ∧ x ≤ 1024) ∧
      1 ≤ w0 ∧ w0 ≤ 1537 ∧ 1 ≤ c ∧ c ≤ 1537 := by
  obtain ⟨hsb, htb, hpre, hbd⟩ := core_ok_elim h
  subst hsb htb
  obtain ⟨hpre0, hbd8, h8, hN2⟩ := id hnd
  obtain ⟨AL, hALeq, hAL1, hAL2⟩ := tb_first_bounds hnd
  obtain ⟨uL, huL, hgaps⟩ := tb_gaps_eq hpre hbd
  obtain ⟨uL', huL2, hbound, hle⟩ := usb1V_last hpre
  rw [huL] at huL2
  have hul : uL = uL' := by
    injection huL2 with hh
  subst hul
  obtain ⟨t, hu1, hcase⟩ := usb1V_gaps hpre
  have hlow := lsb2V_downGaps hbd
  have hcle := hle hN2
  refine ⟨AL, (N : ℤ) / 2 + 1 - uL, downGaps (lsb2V N tbin f0), t,
    ?_, hlow.1, hlow.2, hcase, hAL1, hAL2, by omega, by omega⟩
  rw [widths_structure hpre hbd, hALeq, hgaps, hu1]
  congr 1
  omega

/-- C3, counterexample: at `N = 23300`, `tbin = 13`, `f0 = 2/5825` (a
non-degenerate input), the final Nyquist-clamped bin has width 1101 > 1024,
so not every output bin width is at most 1024. -/
theorem C3_cex :
    NonDegenerate 23300 13 (mkRat 2 5825) ∧
    (bplogsmoothCore 23300 13 (mkRat 2 5825)).map
      (fun p => (widths p.1 p.2).all fun w => decide (w ≤ 1024)) = .ok false :=
  ⟨by with_unfolding_all decide, by with_unfolding_all rfl⟩

/-- C3, witness at `N = 64`, `tbin = 11`, `f0 = 1/8` (bins
`[0,10,13,21]`/`[9,12,20,31]`, widths `[10, 3, 8, 11]`). -/
theorem C3_witness :
    ∃ (w0 c : ℤ) (low r : List ℤ),
      widths [0, 10, 13, 21] [9, 12, 20, 31] =
        w0 :: (low.reverse ++
          ((List.replicate (toneIdx 64 11 (mkRat 1 8)) 8 ++ r) ++ [c])) ∧
      low.Sorted (· ≤ ·) ∧ (∀ g ∈ low, 8 ≤ g ∧ g ≤ 1024) ∧
      (r = [] ∨ ∃ g r', r = g :: r' ∧ (g = 3 ∨ g = 8) ∧ r'.Sorted (· ≤ ·) ∧
        ∀ x ∈ r', 8 ≤ x ∧ x ≤ 1024) ∧
      1 ≤ w0 ∧ w0 ≤ 1537 ∧ 1 ≤ c ∧ c ≤ 1537 :=
  @C3_width_structure 64 11 (mkRat 1 8) [0, 10, 13, 21] [9, 12, 20, 31]
    (by with_unfolding_all decide) (by with_unfolding_all rfl)

/-- C4 (corrected): on non-degenerate inputs every returned interval has
width at least 1 (`startbin[i] ≤ stopbin[i]`) and consecutive bins are
contiguous (`stopbin[i] + 1 = startbin[i+1]`, across the whole output, not
only within a sideband).  The spec's bare precondition `tbin > round(f0*N)`
is not sufficient: see the counterexample. -/
theorem C4_contiguous_intervals {N : ℕ} {tbin : ℤ} {f0 : ℚ} {sb tb : List ℤ}
    (hnd : NonDegenerate N tbin f0)
    (h : bplogsmoothCore N tbin f0 = .ok (sb, tb)) :
    sb.length = tb.length ∧
    (∀ i : ℕ, i < sb.length → sb.getD i 0 ≤ tb.getD i 0) ∧
    (∀ i : ℕ, i + 1 < sb.length → tb.getD i 0 + 1 = sb.getD (i + 1) 0) := by
  obtain ⟨hlen, hpos, hfirst, hlast, hbounds, hcontig, hsort⟩ := ok_bounds hnd h
  exact ⟨hlen, fun i hi => (hbounds i hi).2.1, fun i hi => (hcontig i hi).symm⟩

/-- C4, counterexample: at `N = 100`, `tbin = 5`, `f0 = 0` the spec's
precondition holds (`5 > round(0·100) = 0`), the call returns, but its very
first interval is `[0, -5]`: `startbin[0] > stopbin[0]`, width < 1. -/
theorem C4_cex :
    bin0V 100 0 < 5 ∧
    (bplogsmoothCore 100 5 0).map
      (fun p => decide (p.1.getD 0 0 ≤ p.2.getD 0 0)) = .ok false :=
  ⟨by with_unfolding_all decide, by with_unfolding_all rfl⟩

/-- C4, witness at `N = 64`, `tbin = 11`, `f0 = 1/8`. -/
theorem C4_witness :
    ([0, 10, 13, 21] : List ℤ).length = ([9, 12, 20, 31] : List ℤ).length ∧
    (∀ i : ℕ, i < ([0, 10, 13, 21] : List ℤ).length →
      ([0, 10, 13, 21] : List ℤ).getD i 0 ≤ ([9, 12, 20, 31] : List ℤ).getD i 0) ∧
    (∀ i : ℕ, i + 1 < ([0, 10, 13, 21] : List ℤ).length →
      ([9, 12, 20, 31] : List ℤ).getD i 0 + 1 =
        ([0, 10, 13, 21] : List ℤ).getD (i + 1) 0) :=
  @C4_contiguous_intervals 64 11 (mkRat 1 8) [0, 10, 13, 21] [9, 12, 20, 31]
    (by with_unfolding_all decide) (by with_unfolding_all rfl)

/-- C5 (corrected): on non-degenerate inputs (bins in range, complex `X`
allowed), each output power equals the decibel conversion of the mean
squared magnitude of the samples `X[startbin[i] .. stopbin[i]]`
(end-inclusive), the mean being the sum of squared magnitudes divided by
the bin width in samples.  The claim's "every valid input" scope is too
wide: on merely precondition-satisfying inputs the bins can be out of
range, and the code then slices `X` with Python wrap-around semantics,
which differs from the claimed mean over `X[startbin[i] .. stopbin[i]]`
(see the counterexample). -/
theorem C5_power_formula {X : List ℂ} {tbin : ℤ} {f0 : ℚ} {sb tb : List ℤ}
    (hnd : NonDegenerate X.length tbin f0)
    (h : bplogsmoothCore X.length tbin f0 = .ok (sb, tb)) :
    bplogsmooth X tbin f0 =
      .ok (fOut X.length f0 sb tb,
        (sb.zip tb).map fun q => dbp (specBinMean X q.1 q.2)) := by
  obtain ⟨hlen, hpos, hfirst, hlast, hbounds, hcontig, hsort⟩ := ok_bounds hnd h
  have hN := N_ge_of_nd hnd
  have hb : bplogsmooth X tbin f0 = .ok (fOut X.length f0 sb tb,
      (sb.zip tb).map fun q => pEntry X q.1 q.2) := by
    unfold bplogsmooth
    rw [h]
  rw [hb]
  have hmap : ((sb.zip tb).map fun q => pEntry X q.1 q.2) =
      (sb.zip tb).map fun q => dbp (specBinMean X q.1 q.2) := by
    apply List.ext_getElem (by simp)
    intro i h1 h2
    have hiz : i < (sb.zip tb).length := by simpa using h1
    have hisb : i < sb.length := by
      rw [List.length_zip] at hiz
      omega
    have hitb : i < tb.length := by
      rw [List.length_zip] at hiz
      omega
    simp only [List.getElem_map, List.getElem_zip]
    have hbi := hbounds i hisb
    rw [List.getD_eq_getElem _ _ hisb, List.getD_eq_getElem _ _ hitb] at hbi
    exact pEntry_eq_spec hbi.1 hbi.2.1 (by omega)
  rw [hmap]

/-- C5, witness at `X = [1, 1, ..., 1]` (64 ones), `tbin = 11`,
`f0 = 1/8`. -/
theorem C5_witness :
    bplogsmooth (List.replicate 64 1) 11 (mkRat 1 8) =
      .ok (fOut 64 (mkRat 1 8) [0, 10, 13, 21] [9, 12, 20, 31],
        (([0, 10, 13, 21] : List ℤ).zip ([9, 12, 20, 31] : List ℤ)).map fun q =>
          dbp (specBinMean (List.replicate 64 1) q.1 q.2)) :=
  @C5_power_formula (List.replicate 64 1) 11 (mkRat 1 8)
    [0, 10, 13, 21] [9, 12, 20, 31]
    (by with_unfolding_all decide) (by with_unfolding_all rfl)

/-- C5, counterexample: at `N = 100`, `tbin = 5`, `f0 = 0` the spec's
precondition holds and the call returns, with first bin `[0, -5]`.  For
`X = [20, 0, ..., 0]` the code's power for that bin is
`dbp(norm(X[0:-4]**2/(-4), ord=1)) = dbp(100) = 20` — the slice wraps to
the first 96 samples — while the claimed dB of the mean squared magnitude
over the empty sample range `X[0..-5]` is `dbp(0) = 0`. -/
theorem C5_cex :
    bin0V 100 0 < 5 ∧
    bplogsmoothCore 100 5 0 =
      .ok ([0, -4, 4, 7, 15, 24, 34], [-5, 3, 6, 14, 23, 33, 49]) ∧
    ((20 : ℂ) :: List.replicate 99 0).length = 100 ∧
    pEntry ((20 : ℂ) :: List.replicate 99 0) 0 (-5) = 20 ∧
    dbp (specBinMean ((20 : ℂ) :: List.replicate 99 0) 0 (-5)) = 0 := by
  refine ⟨by with_unfolding_all decide, by with_unfolding_all rfl, by simp, ?_, ?_⟩
  · have hslice : pySlice ((20 : ℂ) :: List.replicate 99 0) 0 (-5 + 1) =
        (20 : ℂ) :: List.replicate 95 0 := by rfl
    unfold pEntry
    rw [hslice, List.map_cons, List.map_replicate]
    have h20 : Complex.abs ((20 : ℂ) ^ 2 / (((-5 : ℤ) - 0 + 1 : ℤ) : ℂ)) = 100 := by
      rw [map_div₀ Complex.abs, map_pow, Complex.abs_intCast, Complex.abs_ofNat]
      norm_num
    have h0 : Complex.abs ((0 : ℂ) ^ 2 / (((-5 : ℤ) - 0 + 1 : ℤ) : ℂ)) = 0 := by
      simp
    rw [h20, h0, List.sum_cons, List.sum_replicate, smul_zero, add_zero]
    unfold dbp
    rw [show (100 : ℝ) = 10 ^ (2 : ℕ) from by norm_num, Real.logb_pow,
      Real.logb_self_eq_one (by norm_num)]
    norm_num
  · unfold specBinMean dbp
    have htake : List.take ((-5 : ℤ) - 0 + 1).toNat
        (List.drop (0 : ℤ).toNat ((20 : ℂ) :: List.replicate 99 0)) = [] := by rfl
    rw [htake]
    simp [Real.logb_zero]

/-- C6 (corrected): on every successful return the output sequences `f`
and `p` have equal length; on non-degenerate inputs `f` is moreover
strictly ascending.  The spec's bare precondition is not sufficient for
the ascending part: see the counterexample. -/
theorem C6_f_ascending {X : List ℂ} {tbin : ℤ} {f0 : ℚ} {fs : List ℚ}
    {ps : List ℝ} (h : bplogsmooth X tbin f0 = .ok (fs, ps)) :
    fs.length = ps.length ∧
    (NonDegenerate X.length tbin f0 → fs.Sorted (· < ·)) := by
  cases hc : bplogsmoothCore X.length tbin f0 with
  | error e =>
      have hb : bplogsmooth X tbin f0 = .error e := by
        unfold bplogsmooth
        rw [hc]
      rw [hb] at h
      exact absurd h (by simp)
  | ok p =>
      obtain ⟨sb, tb⟩ := p
      have hb : bplogsmooth X tbin f0 = .ok (fOut X.length f0 sb tb,
          (sb.zip tb).map fun q => pEntry X q.1 q.2) := by
        unfold bplogsmooth
        rw [hc]
      rw [hb] at h
      simp only [Except.ok.injEq, Prod.mk.injEq] at h
      obtain ⟨hfs, hps⟩ := h
      subst hfs hps
      refine ⟨by simp [fOut], ?_⟩
      intro hnd
      obtain ⟨hlen, hpos, hfirst, hlast, hbounds, hcontig, hsort⟩ :=
        ok_bounds hnd hc
      have hN := N_ge_of_nd hnd
      have hNQ : (0 : ℚ) < (X.length : ℚ) := by
        have h0 : (0 : ℤ) < (X.length : ℤ) := by omega
        exact_mod_cast h0
      have hch : (fOut X.length f0 sb tb).Chain' (· < ·) := by
        rw [List.chain'_iff_get]
        intro i hi
        have hflen : (fOut X.length f0 sb tb).length = (sb.zip tb).length := by
          simp [fOut]
        have hzlen : (sb.zip tb).length = sb.length := by
          rw [List.length_zip]
          omega
        rw [hflen, hzlen] at hi
        have hi1 : i + 1 < sb.length := by omega
        have h1 : i < (sb.zip tb).length := by omega
        have h2 : i + 1 < (sb.zip tb).length := by omega
        simp only [List.get_eq_getElem, fOut, List.getElem_map, List.getElem_zip]
        have e1 : sb[i] = sb.getD i 0 := (List.getD_eq_getElem _ _ (by omega)).symm
        have e2 : tb[i] = tb.getD i 0 := (List.getD_eq_getElem _ _ (by omega)).symm
        have e3 : sb[i + 1] = sb.getD (i + 1) 0 :=
          (List.getD_eq_getElem _ _ (by omega)).symm
        have e4 : tb[i + 1] = tb.getD (i + 1) 0 :=
          (List.getD_eq_getElem _ _ (by omega)).symm
        rw [e1, e2, e3, e4]
        have hb1 := hbounds i (by omega)
        have hcont := hcontig i hi1
        have htlt : tb.getD i 0 < tb.getD (i + 1) 0 :=
          sorted_getD_lt hsort (i := i) (j := i + 1) (by omega) (by omega)
        have key : sb.getD i 0 + tb.getD i 0 < sb.getD (i + 1) 0 + tb.getD (i + 1) 0 := by
          omega
        have keyQ : ((sb.getD i 0 : ℚ) + (tb.getD i 0 : ℚ)) <
            (sb.getD (i + 1) 0 : ℚ) + (tb.getD (i + 1) 0 : ℚ) := by
          exact_mod_cast key
        exact sub_lt_sub_right ((div_lt_div_iff_of_pos_right hNQ).mpr
          ((div_lt_div_iff_of_pos_right (by norm_num : (0 : ℚ) < 2)).mpr keyQ)) f0
      exact List.chain'_iff_pairwise.mp hch

/-- C6, counterexample: at `N = 20`, `tbin = 15`, `f0 = 9/20` the spec's
precondition holds (`15 > round(9) = 9`), yet the returned `f` is not
ascending (its stop bins are `[5, 13, 16, 9]`). -/
theorem C6_cex :
    bin0V 20 (mkRat 9 20) < 15 ∧
    (bplogsmoothCore 20 15 (mkRat 9 20)).map
      (fun p => decide ((fOut 20 (mkRat 9 20) p.1 p.2).Sorted (· < ·))) =
      .ok false :=
  ⟨by with_unfolding_all decide, by with_unfolding_all rfl⟩

set_option maxHeartbeats 1000000 in
/-- C6, witness at `X = [1, 1, ..., 1]` (64 ones), `tbin = 11`,
`f0 = 1/8`. -/
theorem C6_witness :
    (fOut (List.replicate 64 (1 : ℂ)).length (mkRat 1 8)
        [0, 10, 13, 21] [9, 12, 20, 31]).length =
      ((([0, 10, 13, 21] : List ℤ).zip ([9, 12, 20, 31] : List ℤ)).map fun q =>
        pEntry (List.replicate 64 1) q.1 q.2).length ∧
    (NonDegenerate (List.replicate 64 (1 : ℂ)).length 11 (mkRat 1 8) →
      (fOut (List.replicate 64 (1 : ℂ)).length (mkRat 1 8)
        [0, 10, 13, 21] [9, 12, 20, 31]).Sorted (· < ·)) := by
  have hcall : bplogsmooth (List.replicate 64 1) 11 (mkRat 1 8) =
      .ok (fOut (List.replicate 64 (1 : ℂ)).length (mkRat 1 8)
          [0, 10, 13, 21] [9, 12, 20, 31],
        (([0, 10, 13, 21] : List ℤ).zip ([9, 12, 20, 31] : List ℤ)).map fun q =>
          pEntry (List.replicate 64 1) q.1 q.2) := by
    unfold bplogsmooth
    rw [show bplogsmoothCore (List.replicate 64 (1 : ℂ)).length 11 (mkRat 1 8) =
      .ok ([0, 10, 13, 21], [9, 12, 20, 31]) from by with_unfolding_all rfl]
  exact C6_f_ascending hcall

/-- C7 (confirmed): whenever the routine returns, the first start index is 0
and the last stop index is `N2 - 1 = N/2 - 1`, so the bins reach both ends
of the one-sided spectrum (this holds for every successful return, not only
for non-degenerate inputs). -/
theorem C7_spectrum_endpoints {N : ℕ} {tbin : ℤ} {f0 : ℚ} {sb tb : List ℤ}
    (h : bplogsmoothCore N tbin f0 = .ok (sb, tb)) :
    sb.head? = some 0 ∧ tb.getLast? = some ((N : ℤ) / 2 - 1) := by
  obtain ⟨hsb, htb, _, _⟩ := core_ok_elim h
  subst hsb htb
  exact ⟨startbinV_head N tbin f0, stopbinV_last N tbin f0⟩

/-- C7, witness at `N = 64`, `tbin = 11`, `f0 = 1/8`. -/
theorem C7_witness :
    ([0, 10, 13, 21] : List ℤ).head? = some 0 ∧
    ([9, 12, 20, 31] : List ℤ).getLast? = some (((64 : ℕ) : ℤ) / 2 - 1) :=
  @C7_spectrum_endpoints 64 11 (mkRat 1 8) [0, 10, 13, 21] [9, 12, 20, 31]
    (by with_unfolding_all rfl)

/-- C8 (confirmed): both geometric-growth while-loops terminate, for every
input (in particular every input satisfying the precondition): run with fuel
equal to the remaining span to the boundary, the fuel-indexed walks halt
(return `some`) and compute the loop outputs — the step `n` starts at 8 and
never decreases, so each iteration shrinks the remaining span by at least
8. -/
theorem C8_loops_terminate (N : ℕ) (tbin : ℤ) (f0 : ℚ) :
    usbWalk ((N : ℤ) - 2 * ((usbInit N tbin f0).getLast?.getD 0 + 8)).toNat (N : ℤ) 8
        ((usbInit N tbin f0).getLast?.getD 0 + 8) =
      some (usbLoop (N : ℤ) 8 ((usbInit N tbin f0).getLast?.getD 0 + 8)) ∧
    lsbWalk ((lsbInit N tbin f0).getLast?.getD 0 - 8).toNat 8
        ((lsbInit N tbin f0).getLast?.getD 0 - 8) =
      some (lsbLoop 8 ((lsbInit N tbin f0).getLast?.getD 0 - 8)) :=
  ⟨usbWalk_usbLoop le_rfl, lsbWalk_lsbLoop le_rfl⟩

/-- C9 (corrected): on non-degenerate inputs the returned bins do form a
gapless partition of the index range `0 .. N2 - 1` (the two sidebands are
contiguous with each other as well); under the spec's bare precondition
alone this fails: see the counterexample. -/
theorem C9_gapless_partition {N : ℕ} {tbin : ℤ} {f0 : ℚ} {sb tb : List ℤ}
    (hnd : NonDegenerate N tbin f0)
    (h : bplogsmoothCore N tbin f0 = .ok (sb, tb)) :
    IsBinPartition sb tb ((N : ℤ) / 2) := by
  obtain ⟨hlen, hpos, hfirst, hlast, hbounds, hcontig, hsort⟩ := ok_bounds hnd h
  exact partition_of hlen hpos hfirst hlast
    (fun i hi => (hbounds i hi).2.1) hcontig

/-- C9, counterexample: at `N = 20`, `tbin = 15`, `f0 = 9/20` the spec's
precondition holds, the call returns bins `[0,6,14,17]`/`[5,13,16,9]`, but
index 14 (outside `0 .. N2 - 1 = 0 .. 9`) lies in the bin `[14, 16]`, so
the bins are not a partition of `0 .. N2 - 1`. -/
theorem C9_cex :
    bin0V 20 (mkRat 9 20) < 15 ∧
    bplogsmoothCore 20 15 (mkRat 9 20) = .ok ([0, 6, 14, 17], [5, 13, 16, 9]) ∧
    ¬ IsBinPartition [0, 6, 14, 17] [5, 13, 16, 9] ((20 : ℤ) / 2) := by
  refine ⟨by with_unfolding_all decide, by with_unfolding_all rfl, ?_⟩
  intro hpart
  have hex : ∃! i : ℕ, i < ([0, 6, 14, 17] : List ℤ).length ∧
      ([0, 6, 14, 17] : List ℤ).getD i 0 ≤ 14 ∧
      (14 : ℤ) ≤ ([5, 13, 16, 9] : List ℤ).getD i 0 := by
    refine ⟨2, ⟨by decide, by decide, by decide⟩, ?_⟩
    intro y hy
    obtain ⟨hy4, hsy, hty⟩ := hy
    have hlen : ([0, 6, 14, 17] : List ℤ).length = 4 := by decide
    rw [hlen] at hy4
    interval_cases y
    · exact absurd hty (by decide)
    · exact absurd hty (by decide)
    · rfl
    · exact absurd hsy (by decide)
  have hrange := (hpart 14).2 hex
  omega

/-- C9, witness at `N = 64`, `tbin = 11`, `f0 = 1/8`. -/
theorem C9_witness :
    IsBinPartition [0, 10, 13, 21] [9, 12, 20, 31] (((64 : ℕ) : ℤ) / 2) :=
  @C9_gapless_partition 64 11 (mkRat 1 8) [0, 10, 13, 21] [9, 12, 20, 31]
    (by with_unfolding_all decide) (by with_unfolding_all rfl)

/-- C10 (corrected): on non-degenerate inputs every spectrum index read is
in bounds — `0 ≤ startbin[i]`, `stopbin[i] ≤ N2 - 1 ≤ len(X) - 1` — and the
divisor `stopbin[i] - startbin[i] + 1` of the per-bin mean is at least 1;
under the spec's bare precondition alone negative start indices occur: see
the counterexample. -/
theorem C10_reads_in_bounds {X : List ℂ} {tbin : ℤ} {f0 : ℚ} {sb tb : List ℤ}
    (hnd : NonDegenerate X.length tbin f0)
    (h : bplogsmoothBins X tbin f0 = .ok (sb, tb))
    (i : ℕ) (hi : i < sb.length) :
    0 ≤ sb.getD i 0 ∧ sb.getD i 0 ≤ tb.getD i 0 ∧
    tb.getD i 0 ≤ (X.length : ℤ) / 2 - 1 ∧
    (X.length : ℤ) / 2 - 1 ≤ (X.length : ℤ) - 1 ∧
    1 ≤ tb.getD i 0 - sb.getD i 0 + 1 := by
  have hN := N_ge_of_nd hnd
  obtain ⟨hlen, hpos, hfirst, hlast, hbounds, hcontig, hsort⟩ := ok_bounds hnd h
  have hb := hbounds i hi
  exact ⟨hb.1, hb.2.1, hb.2.2, by omega, by omega⟩

/-- C10, counterexample: at `N = 100`, `tbin = 6`, `f0 = 0` the spec's
precondition holds (`6 > 0`), yet a returned start index is negative
(`startbin[1] = -3`), so the power loop reads `X` at out-of-range (Python
wrap-around) indices. -/
theorem C10_cex :
    bin0V 100 0 < 6 ∧
    (bplogsmoothCore 100 6 0).map
      (fun p => p.1.all fun s => decide (0 ≤ s)) = .ok false :=
  ⟨by with_unfolding_all decide, by with_unfolding_all rfl⟩

/-- C10, witness at `N = 64`, `tbin = 11`, `f0 = 1/8`, bin `i = 1`
(interval `[10, 12]`). -/
theorem C10_witness :
    0 ≤ ([0, 10, 13, 21] : List ℤ).getD 1 0 ∧
    ([0, 10, 13, 21] : List ℤ).getD 1 0 ≤ ([9, 12, 20, 31] : List ℤ).getD 1 0 ∧
    ([9, 12, 20, 31] : List ℤ).getD 1 0 ≤
      (((List.replicate 64 (1 : ℂ)).length : ℕ) : ℤ) / 2 - 1 ∧
    (((List.replicate 64 (1 : ℂ)).length : ℕ) : ℤ) / 2 - 1 ≤
      (((List.replicate 64 (1 : ℂ)).length : ℕ) : ℤ) - 1 ∧
    1 ≤ ([9, 12, 20, 31] : List ℤ).getD 1 0 - ([0, 10, 13, 21] : List ℤ).getD 1 0 + 1 := by
  have hnd : NonDegenerate (List.replicate 64 (1 : ℂ)).length 11 (mkRat 1 8) := by
    with_unfolding_all decide
  have hcall : bplogsmoothBins (List.replicate 64 1) 11 (mkRat 1 8) =
      .ok ([0, 10, 13, 21], [9, 12, 20, 31]) := by
    with_unfolding_all rfl
  exact C10_reads_in_bounds hnd hcall 1 (by decide)

end DeltaSigma
